import Mathlib

/-!
Shallow embedding of the transaction modelling and aggregation engine of
`balance.py`: the `Row` value object (construction, tag extraction, month
arithmetic, multi-month splitting), the filter evaluator and the grid
accumulator.  Modelling conventions, stated once here:

* Monetary amounts (`decimal.Decimal` in the source) are modelled as `ℤ`.
  All splitting/aggregation arithmetic in the source is exact decimal
  arithmetic, and every property below is about integer division,
  truncation and exact sums, so integer amounts embed the relevant
  behaviour faithfully; `int(x)` is truncation toward zero.
* Python exceptions become `Except Err` values; each `raise` site of the
  source is a `throw` of the corresponding error of the spec's taxonomy.
* `datetime.date` is modelled as a `year/month/day` record with unbounded
  integer year (the source library restricts years to 1..9999, a bound no
  behaviour below exercises); `calendar.monthrange(y, m)[1]` is the usual
  Gregorian month length including leap years.
* The two `while` loops of `Row._month_add` are embedded with an explicit
  fuel argument that provably dominates the number of iterations.
* `datetime.datetime.utcnow()` (used only by `rel_months`) is passed in
  explicitly as a `now : Date` parameter.
-/

deriving instance DecidableEq for Except

namespace Balance

/-- A calendar date `datetime.date(year, month, day)`, with unbounded year. -/
structure Date where
  year : ℤ
  month : ℤ
  day : ℤ
deriving DecidableEq, Repr

/-- Gregorian leap year test, as `calendar.isleap`. -/
def isLeap (y : ℤ) : Bool :=
  y % 4 == 0 && (y % 100 != 0 || y % 400 == 0)

/-- Number of days of month `m` of year `y`: `calendar.monthrange(y, m)[1]`. -/
def monthLength (y m : ℤ) : ℤ :=
  if m = 2 then (if isLeap y then 29 else 28)
  else if m = 4 ∨ m = 6 ∨ m = 9 ∨ m = 11 then 30
  else 31

/-- Validity of a date: what `datetime.date` enforces at construction
(except for the year range, see the header note). -/
def Date.Valid (d : Date) : Prop :=
  1 ≤ d.month ∧ d.month ≤ 12 ∧ 1 ≤ d.day ∧ d.day ≤ monthLength d.year d.month

instance (d : Date) : Decidable d.Valid := by
  unfold Date.Valid; infer_instance

/-- The first `while` loop of `Row._month_add`
(`while month > 12: year += 1; month -= 12`), with a fuel argument.
`carryUp` below supplies fuel that provably exceeds the iteration count. -/
def carryUpGo : ℕ → ℤ → ℤ → ℤ × ℤ
  | 0, y, m => (y, m)
  | fuel + 1, y, m => if 12 < m then carryUpGo fuel (y + 1) (m - 12) else (y, m)

/-- The second `while` loop of `Row._month_add`
(`while month < 1: year -= 1; month += 12`), with a fuel argument. -/
def carryDownGo : ℕ → ℤ → ℤ → ℤ × ℤ
  | 0, y, m => (y, m)
  | fuel + 1, y, m => if m < 1 then carryDownGo fuel (y - 1) (m + 12) else (y, m)

/-- Normalisation of a year/overflowed-month pair by the two `while` loops of
`Row._month_add`, run in source order (first carry years up, then down). -/
def normYM (y m : ℤ) : ℤ × ℤ :=
  carryDownGo (1 - (carryUpGo m.toNat y m).2).toNat (carryUpGo m.toNat y m).1
    (carryUpGo m.toNat y m).2

/-- `Row._month_add(date, incr)`: add `incr` months to `date`, clamping the
day to the length of the target month; `incr == 0` returns the date
untouched (the source's shortcut). -/
def month_add (date : Date) (incr : ℤ) : Date :=
  if incr = 0 then date
  else
    { year := (normYM date.year (date.month + incr)).1,
      month := (normYM date.year (date.month + incr)).2,
      day := min date.day (monthLength (normYM date.year (date.month + incr)).1
        (normYM date.year (date.month + incr)).2) }

/-- One left-to-right scan of `re.findall(x + '([a-zA-Z]\S*)', comment)` as
used by `Row._xtag`: a match is the prefix character followed by an ASCII
letter followed by the maximal run of non-whitespace characters.  The
`Option (List Char)` state holds the (reversed) characters of the tag being
accumulated, `none` when not inside a match. -/
def scanGo (pfx : Char) : List Char → Option (List Char) → List String
  | [], none => []
  | [], some acc => [String.mk acc.reverse]
  | c :: rest, some acc =>
    if c.isWhitespace then String.mk acc.reverse :: scanGo pfx rest none
    else scanGo pfx rest (some (c :: acc))
  | [_], none => []
  | c :: d :: rest2, none =>
    if c = pfx ∧ d.isAlpha then scanGo pfx rest2 (some [d])
    else scanGo pfx (d :: rest2) none

/-- All tags with prefix `pfx` found in `comment`, in order. -/
def tagsFound (pfx : Char) (comment : String) : List String :=
  scanGo pfx comment.toList none

/-- The hashtags of a comment (`'#'`-prefixed, as scanned by `Row._xtag`). -/
def hashtags (comment : String) : List String :=
  tagsFound '#' comment

/-- The error taxonomy: one constructor per distinct `raise` site of the
source that the claims touch, using the spec's names.  `zeroDivisionError`
is the implicit Python `ZeroDivisionError`/`InvalidOperation` of the
unguarded division `this_value / each_value` in the proportional splitter.
-/
inductive Err where
  | invalidDirection
  | negativeMagnitude
  | malformedDate
  | multipleTags
  | malformedDirective
  | divisionByZero
  | zeroDivisionError
  | unknownSplitMethod
  | unknownField
  | typeMismatch
  | malformedPredicate
  | unknownOp
deriving DecidableEq, Repr

/-- A transaction record (`Row`).  `value` is the stored signed amount,
`hashtag` the category tag extracted from the comment at construction. -/
structure Row where
  value : ℤ
  date : Date
  comment : String
  hashtag : Option String
deriving DecidableEq, Repr

/-- `Row._xtag(x)`: the single tag with prefix `pfx`, `none` when absent,
an error when the comment carries more than one such tag. -/
def xtag (pfx : Char) (comment : String) : Except Err (Option String) :=
  let allTags := tagsFound pfx comment
  if allTags.length > 1 then throw .multipleTags
  else pure allTags.head?

/-- `Row.bangtag()`: the single `'!'`-prefixed tag of the comment. -/
def Row.bangtag (r : Row) : Except Err (Option String) :=
  xtag '!' r.comment

/-- The body of `Row.__new__` after the date string has been parsed:
validate the direction, reject negative magnitudes, store the amount
negated for outgoing rows, and extract the (at most one) hashtag. -/
def mkRowD (value : ℤ) (date : Date) (comment direction : String) :
    Except Err Row :=
  if direction ≠ "incoming" ∧ direction ≠ "outgoing" then throw .invalidDirection
  else if value < 0 then throw .negativeMagnitude
  else
    let v := if direction = "outgoing" then 0 - value else value
    match xtag '#' comment with
    | .error e => throw e
    | .ok tag => pure { value := v, date := date, comment := comment, hashtag := tag }

/-- Split a character list at a separator, as Python `str.split(sep)`. -/
def splitGo (sep : Char) : List Char → List Char → List String
  | [], acc => [String.mk acc.reverse]
  | c :: rest, acc =>
    if c = sep then String.mk acc.reverse :: splitGo sep rest []
    else splitGo sep rest (c :: acc)

/-- Python `s.split(':')`, used by `Row._split_dates` on the bangtag. -/
def splitColon (s : String) : List String :=
  splitGo ':' s.toList []

/-- Numeric value of a list of ASCII digits. -/
def digitsVal (ds : List Char) : ℤ :=
  ds.foldl (fun acc c => acc * 10 + ((c.toNat : ℤ) - 48)) 0

/-- Python `int(s)` on a bangtag field: optional sign followed by at least
one ASCII digit (digit-group underscores, accepted by Python, are not
modelled; no claim uses them). -/
def parseInt (s : String) : Option ℤ :=
  match s.toList with
  | [] => none
  | '-' :: ds => if ds ≠ [] ∧ ds.all Char.isDigit then some (0 - digitsVal ds) else none
  | '+' :: ds => if ds ≠ [] ∧ ds.all Char.isDigit then some (digitsVal ds) else none
  | ds => if ds.all Char.isDigit then some (digitsVal ds) else none

/-- Python `str.strip()` (ASCII whitespace at both ends). -/
def strip (s : String) : String :=
  String.mk ((s.toList.dropWhile Char.isWhitespace).reverse.dropWhile
    Char.isWhitespace).reverse

/-- `datetime.datetime.strptime(s, "%Y-%m-%d").date()`: three dash-separated
digit fields forming a valid calendar date; `datetime` restricts the year to
1..9999. -/
def parseDate (s : String) : Option Date :=
  match splitGo '-' s.toList [] with
  | [ys, ms, ds] =>
    if ys.toList ≠ [] ∧ ys.toList.all Char.isDigit ∧
       ms.toList ≠ [] ∧ ms.toList.all Char.isDigit ∧
       ds.toList ≠ [] ∧ ds.toList.all Char.isDigit then
      let d : Date := ⟨digitsVal ys.toList, digitsVal ms.toList, digitsVal ds.toList⟩
      if 1 ≤ d.year ∧ d.year ≤ 9999 ∧ d.Valid then some d else none
    else none
  | _ => none

/-- `Row.__new__`: parse the stripped date string, then validate the
direction and the magnitude and store the signed amount (`mkRowD`).
`decimal.Decimal(value)` never fails on an integer amount, so only the
remaining error cases appear. -/
def mkRow (value : ℤ) (dateStr comment direction : String) : Except Err Row :=
  match parseDate (strip dateStr) with
  | none => throw .malformedDate
  | some date => mkRowD value date comment direction

/-- `Row.direction`: re-derived from the sign of the stored value. -/
def Row.direction (r : Row) : String :=
  if r.value < 0 then "outgoing" else "incoming"

/-- Left-pad a numeral with zeros, as the `strftime`/`isoformat` padding. -/
def padZ (n : ℕ) (s : String) : String :=
  String.mk (List.replicate (n - s.length) '0') ++ s

/-- `date.strftime('%Y-%m')`, the row's month key. -/
def monthKey (d : Date) : String :=
  padZ 4 (toString d.year) ++ "-" ++ padZ 2 (toString d.month)

/-- `date.isoformat()`, also `str(date)`. -/
def isoDate (d : Date) : String :=
  padZ 4 (toString d.year) ++ "-" ++ padZ 2 (toString d.month) ++ "-" ++
    padZ 2 (toString d.day)

/-- `Row.month`. -/
def Row.month (r : Row) : String :=
  monthKey r.date

/-- The construction invariant every real `Row` satisfies: its comment
carries at most one hashtag (enforced in `__new__`) and its date is a
valid calendar date (guaranteed by `strptime`). -/
def Row.WF (r : Row) : Prop :=
  (hashtags r.comment).length ≤ 1 ∧ r.date.Valid

/-- The `start`/`end` bounds read from the fields after `months`:
`start:count` when two fields follow, plain `count` when one does.  A field
`int()` rejects raises the same `ValueError` class as a wrong field count;
both are the spec's `MalformedDirective`. -/
def monthsBounds : List String → Except Err (ℤ × ℤ)
  | [c] =>
    (match parseInt c with
     | none => throw Err.malformedDirective
     | some n => pure ((0 : ℤ), n))
  | [a, c] =>
    (match parseInt a, parseInt c with
     | some x, some y => pure (x, x + y)
     | _, _ => throw Err.malformedDirective)
  | _ => throw Err.malformedDirective

/-- The date list built by the `for i in range(start, end)` loop of
`Row._split_dates`. -/
def splitRange (d : Date) (start fin : ℤ) : List Date :=
  (List.range (fin - start).toNat).map (fun i : ℕ => month_add d (start + (i : ℤ)))

/-- The body of `Row._split_dates` once the bangtag has been split into
colon-separated fields. -/
def split_dates_fields (r : Row) : List String → Except Err (List Date)
  | [] => pure [r.date]
  | f0 :: restF =>
    if f0 ≠ "months" then pure [r.date]
    else if restF.length < 1 ∨ 2 < restF.length then throw .malformedDirective
    else do
      let se ← monthsBounds restF
      pure (splitRange r.date se.1 se.2)

/-- The body of `Row._split_dates` once the bangtag has been extracted. -/
def split_dates_tag (r : Row) : Option String → Except Err (List Date)
  | none => pure [r.date]
  | some t => split_dates_fields r (splitColon t)

/-- `Row._split_dates()`: read the `!months` bangtag and compute the list
of dates this row could be split into. -/
def Row.split_dates (r : Row) : Except Err (List Date) :=
  r.bangtag >>= split_dates_tag r

/-- Summation of rows, as Python `sum(rows)` through `Row.__add__` and
`Row.__radd__`: a row participates in sums as its stored signed amount. -/
def sumValues (rows : List Row) : ℤ :=
  (rows.map Row.value).sum

/-- The carry loop of the proportional splitter
(`while value >= each_value and len(dates): ...`): pops dates while a full
share remains, appending one full-share row per month.  Returns the
remaining value, the unconsumed dates, the most recently popped date and
the accumulated rows. -/
def propLoop (each : ℤ) (comment direction : String) :
    ℤ → List Date → Date → List Row → Except Err (ℤ × List Date × Date × List Row)
  | value, [], lastDate, rows => pure (value, [], lastDate, rows)
  | value, d :: rest, lastDate, rows =>
    if each ≤ value then do
      let row ← mkRowD each d comment direction
      propLoop each comment direction (value - each) rest d (rows ++ [row])
    else pure (value, d :: rest, lastDate, rows)

/-- The child-construction loop of the simple splitter: one child per
date, the first child receiving the truncation remainder. -/
def autosplit_simple_children (r : Row) (comment : String)
    (each remainder : ℤ) : List Date → Except Err (List Row)
  | [] => throw .divisionByZero
  | d0 :: rest => do
    let r0 ← mkRowD (each + remainder) d0 comment r.direction
    let rs ← rest.mapM (fun d => mkRowD each d comment r.direction)
    pure (r0 :: rs)

/-- The `method == 'simple'` branch of `Row.autosplit`: unchanged
passthrough when the split would be the single original date, otherwise one
child per date, the first child receiving the truncation remainder. -/
def autosplit_simple (r : Row) (dates : List Date) (comment : String)
    (each remainder : ℤ) : Except Err (List Row) :=
  if dates.length = 1 ∧ dates.head? = some r.date then pure [r]
  else autosplit_simple_children r comment each remainder dates

/-- The annotation `"({}% dom={} W{})".format(percent, day, week)` appended
to the final proportional child's comment. -/
def percentAnnotation (percent2 dayE : ℚ) (week : ℤ) : String :=
  "(" ++ toString percent2 ++ "% dom=" ++ toString dayE ++ " W" ++
    toString week ++ ")"

/-- The date the residual is attributed to: the next unconsumed date, or
one month past the last consumed one. -/
def propFinalDate (datesLeft : List Date) (lastDate : Date) : Date :=
  match datesLeft with
  | d :: _ => d
  | [] => month_add lastDate 1

/-- The final block of the proportional splitter, after the carry loop:
choose the final date (clamped to the 1st), attribute the whole residual to
it, and annotate its comment with the percent/day/week estimate.  The
division `this_value / each_value` is unguarded in the source; `each = 0`
raises, modelled by the explicit outermost `throw` (the bindings before it
in the source are pure, so lifting the failing division above them
preserves the semantics).  `int(day/7)` is the floor of the non-negative
`day` estimate. -/
def propFinal (r : Row) (comment : String) (each : ℤ) (datesLeft : List Date)
    (lastDate : Date) (rows : List Row) : Except Err (List Row) :=
  if each = 0 then throw .zeroDivisionError
  else
    let dateF1 : Date := { propFinalDate datesLeft lastDate with day := 1 }
    let thisVal := |sumValues rows - r.value|
    let percent2 : ℚ := min 1 ((thisVal : ℚ) / (each : ℚ))
    let dayE : ℚ := percent2 * 27 + 1
    let week : ℤ := ⌊dayE / 7⌋
    (mkRowD thisVal dateF1 (comment ++ percentAnnotation percent2 dayE week)
      r.direction).map (fun rF => rows ++ [rF])

/-- `int(each_value * percent)` of the proportional splitter's first month:
`percent = 1 - min(28, day-1)/28.0` is a binary float in the source, an
exact rational here; the product is non-negative, so `int()` is the floor.
-/
def firstShare (each day : ℤ) : ℤ :=
  ⌊(each : ℚ) * (1 - ((min 28 (day - 1) : ℤ) : ℚ) / 28)⌋

def autosplit_proportional (r : Row) (dates : List Date) (comment : String)
    (each : ℤ) : Except Err (List Row) :=
  match dates with
  | [] => throw .divisionByZero
  | d0 :: rest => do
    let t0 : ℤ := firstShare each d0.day
    let r0 ← mkRowD t0 d0 comment r.direction
    let res ← propLoop each comment r.direction (r.value - t0) rest d0 [r0]
    propFinal r comment each res.2.1 res.2.2.1 res.2.2.2

/-- `Row.autosplit(method)`: expand the row according to its `!months`
bangtag.  Children are constructed through `Row(value, date.isoformat(),
comment, direction)`; the ISO round-trip is the identity on valid dates, so
the model passes the date value directly to the constructor body.
`int(abs(self.value / count_children))` on integer amounts is the
truncating integer division of the magnitude (`Int.tdiv`, here also the
floor, since the magnitude is non-negative).  The numeral rendering inside
the proportional annotation string uses the `ℚ`/`ℤ` `toString` rather than
`str(Decimal)`; nothing reads the annotation back. -/
def Row.autosplit (r : Row) (method : String) : Except Err (List Row) := do
  let dates ← r.split_dates
  let comment := r.comment ++ " !child"
  let count := dates.length
  if count < 1 then throw .divisionByZero
  else
    let each : ℤ := Int.tdiv |r.value| (count : ℤ)
    if method = "simple" then
      autosplit_simple r dates comment each (|r.value| - each * (count : ℤ))
    else if method = "proportional" then
      autosplit_proportional r dates comment each
    else throw .unknownSplitMethod

/-- Python `str.capitalize()` (ASCII): first character upper-cased, the
rest lower-cased. -/
def strCapitalize (s : String) : String :=
  match s.toList with
  | [] => ""
  | c :: rest => String.mk (c.toUpper :: rest.map Char.toLower)

/-- The grouping key `grid_accumulate` files a row under. -/
def rowTag (r : Row) : String :=
  strCapitalize (r.hashtag.getD "unknown")

/-- Lexicographic date order, as `datetime.date` comparison. -/
def dateLe (a b : Date) : Bool :=
  decide (a.year < b.year ∨ (a.year = b.year ∧ (a.month < b.month ∨
    (a.month = b.month ∧ a.day ≤ b.day))))

/-- Python `max(a, b)`: the first argument on ties. -/
def dateMax (a b : Date) : Date :=
  if dateLe b a then a else b

/-- The state accumulated by `grid_accumulate`: month and tag sets, the
tag-by-month cells and the totals mapping.  Python dict entries with their
"create if missing" zero initialisation are modelled as total functions
whose default is that initialisation value, which agrees with the source on
every key it ever creates or reads. -/
structure Grid where
  months : List String
  tags : List String
  sums : String → String → ℤ
  lasts : String → String → Date
  totals : String → ℤ

/-- The body of the `for row in rows` loop of `grid_accumulate`: the inner
conditional (`t1`) is the `totals[month] += row.value` update, the outer
one the `totals['total'] += row.value` update that follows it. -/
def gridStep (g : Grid) (r : Row) : Grid :=
  { months := if r.month ∈ g.months then g.months else g.months ++ [r.month]
    tags := if rowTag r ∈ g.tags then g.tags else g.tags ++ [rowTag r]
    sums := fun t m =>
      if t = rowTag r ∧ m = r.month then g.sums t m + r.value else g.sums t m
    lasts := fun t m =>
      if t = rowTag r ∧ m = r.month then dateMax r.date (g.lasts t m)
      else g.lasts t m
    totals := fun k =>
      if k = "total" then
        (if "total" = r.month then g.totals "total" + r.value
         else g.totals "total") + r.value
      else if k = r.month then g.totals k + r.value
      else g.totals k }

/-- `grid_accumulate(rows)`. -/
def grid_accumulate (rows : List Row) : Grid :=
  rows.foldl gridStep
    { months := [], tags := [], sums := fun _ _ => 0,
      lasts := fun _ _ => ⟨1970, 1, 1⟩, totals := fun _ => 0 }

/-- A Python value as seen by the filter evaluator: the numeric tower
(int/Decimal/float compare exactly with each other) or text. -/
inductive PyVal where
  | num (q : ℚ)
  | str (s : String)
deriving DecidableEq, Repr

/-- Whether a filter operand is numeric. -/
def PyVal.isNum : PyVal → Bool
  | .num _ => true
  | .str _ => false

/-- Cumulative day count before month `m` in a non-leap year. -/
def daysBeforeMonth (m : ℤ) : ℤ :=
  if m = 1 then 0 else if m = 2 then 31 else if m = 3 then 59
  else if m = 4 then 90 else if m = 5 then 120 else if m = 6 then 151
  else if m = 7 then 181 else if m = 8 then 212 else if m = 9 then 243
  else if m = 10 then 273 else if m = 11 then 304 else 334

/-- Proleptic Gregorian day number; differences of these match
`datetime.date` subtraction. -/
def toOrdinal (d : Date) : ℤ :=
  365 * (d.year - 1) + Int.fdiv (d.year - 1) 4 - Int.fdiv (d.year - 1) 100 +
    Int.fdiv (d.year - 1) 400 + daysBeforeMonth d.month +
    (if 2 < d.month ∧ isLeap d.year then 1 else 0) + d.day

/-- `Row.rel_months` with the ambient `utcnow()` passed in explicitly:
whole-month distance of the row's month from the current month using
28-day months; `int(rel_days / 28.0)` truncates toward zero. -/
def Row.rel_months (r : Row) (now : Date) : ℤ :=
  let relDays := toOrdinal { r.date with day := 1 } - toOrdinal { now with day := 1 }
  Int.tdiv relDays 28

/-- `Row._getvalue(field)`: the readable attributes of a row, with
callables called and non-primitive values rendered through `str()`
(`None` renders as `"None"`).  Names reaching methods that need arguments
are not modelled. -/
def Row.getvalue (r : Row) (now : Date) (field : String) : Except Err PyVal :=
  if field = "value" then pure (.num (r.value : ℚ))
  else if field = "date" then pure (.str (isoDate r.date))
  else if field = "comment" then pure (.str r.comment)
  else if field = "direction" then pure (.str r.direction)
  else if field = "month" then pure (.str r.month)
  else if field = "hashtag" then pure (.str (r.hashtag.getD "None"))
  else if field = "bangtag" then do
    let t ← r.bangtag
    pure (.str (t.getD "None"))
  else if field = "rel_months" then pure (.num (r.rel_months now : ℚ))
  else throw .unknownField

/-- Fractional value of a digit run after a decimal point. -/
def fracVal (ds : List Char) : ℚ :=
  (digitsVal ds : ℚ) / ((10 : ℚ) ^ ds.length)

/-- An unsigned Python float literal: digits with an optional point. -/
def parseUnsignedFloat (cs : List Char) : Option ℚ :=
  let ip := cs.takeWhile Char.isDigit
  let rest := cs.dropWhile Char.isDigit
  match rest with
  | [] => if ip ≠ [] then some (digitsVal ip : ℚ) else none
  | '.' :: fp =>
    if fp.all Char.isDigit ∧ (ip ≠ [] ∨ fp ≠ []) then
      some ((digitsVal ip : ℚ) + fracVal fp)
    else none
  | _ => none

/-- Python `float(s)` as used to coerce the filter comparison value
(binary-float rounding idealised as exact rationals; scientific notation
and the named special values are not modelled). -/
def parseFloat (s : String) : Option ℚ :=
  match (strip s).toList with
  | '-' :: cs => (parseUnsignedFloat cs).map (fun q => -q)
  | '+' :: cs => parseUnsignedFloat cs
  | cs => parseUnsignedFloat cs

/-- The coercion `value_match = float(value_match)` with text fallback. -/
def coerceValue (s : String) : PyVal :=
  match parseFloat s with
  | some q => .num q
  | none => .str s

/-- Python `==` between the filter operand types: numbers compare
numerically, strings textually, mixed types are unequal without error. -/
def pyEq : PyVal → PyVal → Bool
  | .num a, .num b => a == b
  | .str a, .str b => a == b
  | _, _ => false

/-- Code-point lexicographic order on character runs: Python `str < str`. -/
def lexLt : List Char → List Char → Bool
  | _, [] => false
  | [], _ :: _ => true
  | a :: as, b :: bs => decide (a.toNat < b.toNat) || (a == b && lexLt as bs)

/-- Python `<` between the filter operand types: defined inside the numeric
tower and between two strings (code-point lexicographic); a mixed
numeric/text comparison raises `TypeError`, the spec's `TypeMismatch`. -/
def pyLt : PyVal → PyVal → Except Err Bool
  | .num a, .num b => pure (decide (a < b))
  | .str a, .str b => pure (lexLt a.toList b.toList)
  | _, _ => throw .typeMismatch

/-- Prefix test on character lists. -/
def isPrefixL : List Char → List Char → Bool
  | [], _ => true
  | _ :: _, [] => false
  | a :: as, b :: bs => a == b && isPrefixL as bs

/-- Containment of one character run inside another. -/
def containsL (needle : List Char) : List Char → Bool
  | [] => isPrefixL needle []
  | c :: rest => isPrefixL needle (c :: rest) || containsL needle rest

/-- `re.search(value_match, value_now, re.I)` for a metacharacter-free
pattern: case-insensitive substring search; a non-string operand on either
side is a `TypeError` (`TypeMismatch`). -/
def pySearch : PyVal → PyVal → Except Err Bool
  | .str needle, .str hay =>
    pure (containsL (needle.toList.map Char.toLower) (hay.toList.map Char.toLower))
  | _, _ => throw .typeMismatch

/-- A character the field group `[a-z0-9_]+` (with `re.I`) accepts. -/
def isFieldChar (c : Char) : Bool :=
  c.isAlpha || c.isDigit || c == '_'

/-- A character of the operator class `[=!<>~]`. -/
def isOpChar (c : Char) : Bool :=
  c == '=' || c == '!' || c == '<' || c == '>' || c == '~'

/-- The predicate regex `([a-z0-9_]+)([=!<>~]{1,2})(.*)` under `re.I`:
a maximal run of field characters, then greedily up to two operator
characters, then the rest of the line (`.` stops at a newline). -/
def parseFilterString (s : String) : Except Err (String × String × String) :=
  let cs := s.toList
  let fieldCs := cs.takeWhile isFieldChar
  let rest1 := cs.dropWhile isFieldChar
  let opCs := (rest1.takeWhile isOpChar).take 2
  let rest2 := rest1.drop opCs.length
  let valCs := rest2.takeWhile (fun c => c ≠ '\n')
  if fieldCs = [] ∨ opCs = [] then throw .malformedPredicate
  else pure (String.mk fieldCs, String.mk opCs, String.mk valCs)

/-- `Row.filter(string)`: evaluate one textual predicate against the row,
`some row` on match, `none` on non-match, errors as in the source. -/
def Row.filter (r : Row) (now : Date) (s : String) : Except Err (Option Row) := do
  let fov ← parseFilterString s
  let (field, op, valueMatchS) := fov
  let valueNow ← r.getvalue now field
  let valueMatch := coerceValue valueMatchS
  if op = "==" then pure (if pyEq valueNow valueMatch then some r else none)
  else if op = "!=" then pure (if pyEq valueNow valueMatch then none else some r)
  else if op = ">" then do
    let b ← pyLt valueMatch valueNow
    pure (if b then some r else none)
  else if op = "<" then do
    let b ← pyLt valueNow valueMatch
    pure (if b then some r else none)
  else if op = "=~" then do
    let b ← pySearch valueMatch valueNow
    pure (if b then some r else none)
  else throw .unknownOp

/-! ### Lemmas about the tag scanner -/

theorem whitespace_not_alpha (w : Char) (h : w.isWhitespace = true) :
    w.isAlpha = false := by
  have hw : ((w = ' ' ∨ w = '\t') ∨ w = '\r') ∨ w = '\n' := by
    simpa [Char.isWhitespace] using h
  rcases hw with ((h | h) | h) | h <;> subst h <;> decide

theorem scanGo_ws_cons (pfx : Char) (hpfx : pfx.isWhitespace = false)
    (w : Char) (hw : w.isWhitespace = true) (rest : List Char) :
    scanGo pfx (w :: rest) none = scanGo pfx rest none := by
  match rest with
  | [] => rfl
  | d :: r2 =>
    have hne : ¬(w = pfx ∧ d.isAlpha) := by
      rintro ⟨h1, _⟩; rw [h1] at hw; rw [hw] at hpfx; cases hpfx
    simp [scanGo, hne]

theorem scanGo_nil_append (pfx : Char) (hpfx : pfx.isWhitespace = false)
    (ws : List Char) (hws : ∀ w, ws.head? = some w → w.isWhitespace = true)
    (st : Option (List Char)) :
    scanGo pfx ([] ++ ws) st = scanGo pfx [] st ++ scanGo pfx ws none := by
  match st with
  | none => simp [scanGo]
  | some acc =>
    match ws, hws with
    | [], _ => simp [scanGo]
    | w :: rest, hws =>
      have hw : w.isWhitespace = true := hws w rfl
      simp [scanGo, hw, scanGo_ws_cons pfx hpfx w hw rest]

theorem scanGo_append_aux (pfx : Char) (hpfx : pfx.isWhitespace = false)
    (ws : List Char) (hws : ∀ w, ws.head? = some w → w.isWhitespace = true) :
    ∀ (n : ℕ) (l : List Char) (st : Option (List Char)), l.length ≤ n →
      scanGo pfx (l ++ ws) st = scanGo pfx l st ++ scanGo pfx ws none := by
  intro n
  induction n with
  | zero =>
    intro l st hl
    have hnil : l = [] := List.length_eq_zero.mp (Nat.le_zero.mp hl)
    subst hnil
    exact scanGo_nil_append pfx hpfx ws hws st
  | succ n ih =>
    intro l st hl
    match l, st with
    | [], st =>
      exact scanGo_nil_append pfx hpfx ws hws st
    | c :: l2, some acc =>
      have hlen : l2.length ≤ n := by simp at hl; omega
      by_cases hc : c.isWhitespace
      · simp only [List.cons_append, scanGo, hc, if_true]
        rw [ih l2 none hlen]
      · simp only [List.cons_append, scanGo, hc, if_false]
        exact ih l2 (some (c :: acc)) hlen
    | [c], none =>
      match ws, hws with
      | [], _ => simp [scanGo]
      | w :: rest, hws =>
        have hw : w.isWhitespace = true := hws w rfl
        have hne : ¬(c = pfx ∧ w.isAlpha) := by
          rintro ⟨_, h2⟩; rw [whitespace_not_alpha w hw] at h2; cases h2
        simp [scanGo, hne]
    | c :: d :: l2, none =>
      have hlen : (d :: l2).length ≤ n := by simp at hl ⊢; omega
      by_cases hcd : c = pfx ∧ d.isAlpha
      · simp only [List.cons_append, scanGo, hcd, if_true]
        exact ih l2 (some [d]) (by simp at hlen ⊢; omega)
      · simp only [List.cons_append, scanGo, hcd, if_false]
        exact ih (d :: l2) none hlen

/-- Scanning `l ++ ws` where `ws` opens with whitespace scans the two parts
independently (a tag in progress is closed by the whitespace boundary). -/
theorem scanGo_append (pfx : Char) (hpfx : pfx.isWhitespace = false)
    (l ws : List Char) (st : Option (List Char))
    (hws : ∀ w, ws.head? = some w → w.isWhitespace = true) :
    scanGo pfx (l ++ ws) st = scanGo pfx l st ++ scanGo pfx ws none :=
  scanGo_append_aux pfx hpfx ws hws l.length l st le_rfl

theorem toList_append (a b : String) : (a ++ b).toList = a.toList ++ b.toList := by
  simp [String.toList]

/-- Appending the `" !child"` marker does not disturb the hashtag scan. -/
theorem hashtags_append_child (c : String) :
    hashtags (c ++ " !child") = hashtags c := by
  unfold hashtags tagsFound
  rw [toList_append]
  rw [scanGo_append '#' (by decide) c.toList " !child".toList none
    (by intro w h; cases h; decide)]
  have h0 : scanGo '#' " !child".toList none = [] := by decide
  rw [h0, List.append_nil]

/-- Appending the `" !child"` marker appends exactly the `child` bangtag to
the bangtag scan. -/
theorem bangtags_append_child (c : String) :
    tagsFound '!' (c ++ " !child") = tagsFound '!' c ++ ["child"] := by
  unfold tagsFound
  rw [toList_append]
  rw [scanGo_append '!' (by decide) c.toList " !child".toList none
    (by intro w h; cases h; decide)]
  have h0 : scanGo '!' " !child".toList none = ["child"] := by decide
  rw [h0]

/-! ### Lemmas about the constructor -/

/-- The sign a direction string applies to a stored magnitude. -/
def dirSign (direction : String) : ℤ :=
  if direction = "outgoing" then -1 else 1

theorem mkRowD_ok (value : ℤ) (date : Date) (comment direction : String)
    (hdir : direction = "incoming" ∨ direction = "outgoing")
    (hval : 0 ≤ value) (htags : (hashtags comment).length ≤ 1) :
    mkRowD value date comment direction =
      .ok { value := dirSign direction * value, date := date, comment := comment,
            hashtag := (hashtags comment).head? } := by
  unfold mkRowD xtag
  have hd : ¬(direction ≠ "incoming" ∧ direction ≠ "outgoing") := by
    rcases hdir with h | h <;> simp [h]
  have hv : ¬(value < 0) := not_lt.mpr hval
  have hlen : ¬((tagsFound '#' comment).length > 1) := by
    simpa [hashtags] using htags
  simp only [hd, if_false, hv, hlen]
  rcases eq_or_ne direction "outgoing" with h | h <;>
    simp [h, dirSign, hashtags, pure, Except.pure]

theorem mkRowD_ok_inv {value : ℤ} {date : Date} {comment direction : String}
    {r : Row} (h : mkRowD value date comment direction = .ok r) :
    r.value = dirSign direction * value ∧ r.date = date ∧
      r.comment = comment ∧ 0 ≤ value := by
  unfold mkRowD xtag at h
  by_cases hd : direction ≠ "incoming" ∧ direction ≠ "outgoing"
  · simp [hd, throw, throwThe, MonadExceptOf.throw] at h
  by_cases hv : value < 0
  · simp [hd, hv, throw, throwThe, MonadExceptOf.throw] at h
  by_cases hlen : (tagsFound '#' comment).length > 1
  · simp [hd, hv, hlen, throw, throwThe, MonadExceptOf.throw] at h
  · simp only [hd, if_false, hv, hlen, pure, Except.pure] at h
    cases h
    refine ⟨?_, rfl, rfl, not_lt.mp hv⟩
    rcases eq_or_ne direction "outgoing" with hdir | hdir <;> simp [hdir, dirSign]

theorem mkRowD_error {value : ℤ} {date : Date} {comment direction : String}
    {e : Err} (h : mkRowD value date comment direction = .error e) :
    e = .invalidDirection ∨ e = .negativeMagnitude ∨ e = .multipleTags := by
  unfold mkRowD xtag at h
  by_cases hd : direction ≠ "incoming" ∧ direction ≠ "outgoing"
  · simp [hd, throw, throwThe, MonadExceptOf.throw] at h
    exact .inl h.symm
  by_cases hv : value < 0
  · simp [hd, hv, throw, throwThe, MonadExceptOf.throw] at h
    exact .inr (.inl h.symm)
  by_cases hlen : (tagsFound '#' comment).length > 1
  · simp [hd, hv, hlen, throw, throwThe, MonadExceptOf.throw] at h
    exact .inr (.inr h.symm)
  · simp [hd, hv, hlen, pure, Except.pure] at h

theorem Row.direction_cases (r : Row) :
    r.direction = "incoming" ∨ r.direction = "outgoing" := by
  unfold Row.direction
  by_cases h : r.value < 0 <;> simp [h]

theorem dirSign_mul_abs (r : Row) : dirSign r.direction * |r.value| = r.value := by
  unfold dirSign Row.direction
  by_cases h : r.value < 0
  · simp [h, abs_of_neg h]
  · simp [h, abs_of_nonneg (not_lt.mp h)]

/-! ### Evaluation lemmas for the splitter -/

theorem bindE_ok {ε α β : Type} (a : α) (f : α → Except ε β) :
    (Except.ok a : Except ε α) >>= f = f a := rfl

theorem bindE_error {ε α β : Type} (e : ε) (f : α → Except ε β) :
    (Except.error e : Except ε α) >>= f = .error e := rfl

theorem pureE {ε α : Type} (a : α) : (pure a : Except ε α) = .ok a := rfl

theorem throwE {α : Type} (e : Err) : (throw e : Except Err α) = .error e := rfl

theorem bangtag_single {r : Row} {t : String}
    (h : tagsFound '!' r.comment = [t]) : r.bangtag = .ok (some t) := by
  unfold Row.bangtag xtag
  simp [h, pureE]

theorem bangtag_none {r : Row} (h : tagsFound '!' r.comment = []) :
    r.bangtag = .ok none := by
  unfold Row.bangtag xtag
  simp [h, pureE]

theorem bangtag_multiple {r : Row} {t1 t2 : String} {rest : List String}
    (h : tagsFound '!' r.comment = t1 :: t2 :: rest) :
    r.bangtag = .error .multipleTags := by
  unfold Row.bangtag xtag
  simp [h, throwE]

theorem split_dates_months {r : Row} {t cs : String} {n : ℤ}
    (htag : tagsFound '!' r.comment = [t])
    (hsplit : splitColon t = ["months", cs])
    (hn : parseInt cs = some n) :
    r.split_dates = .ok (splitRange r.date 0 n) := by
  unfold Row.split_dates
  rw [bangtag_single htag, bindE_ok]
  simp only [split_dates_tag, hsplit, split_dates_fields]
  simp [monthsBounds, hn, bindE_ok, pureE]

theorem split_dates_no_directive {r : Row}
    (h : tagsFound '!' r.comment = [] ∨
      ∃ t fs, tagsFound '!' r.comment = [t] ∧ splitColon t = fs ∧
        fs.head? ≠ some "months") :
    r.split_dates = .ok [r.date] := by
  unfold Row.split_dates
  rcases h with h | ⟨t, fs, htag, hsplit, hhead⟩
  · rw [bangtag_none h, bindE_ok]; rfl
  · rw [bangtag_single htag, bindE_ok]
    simp only [split_dates_tag, hsplit]
    match fs, hhead with
    | [], _ => rfl
    | f0 :: restF, hhead =>
      have : f0 ≠ "months" := by
        intro hc; exact hhead (by rw [hc]; rfl)
      simp [split_dates_fields, this, pureE]

theorem splitRange_length (d : Date) (s f : ℤ) :
    (splitRange d s f).length = (f - s).toNat := by
  simp [splitRange]

theorem splitRange_cons (d : Date) (s f : ℤ) (h : s < f) :
    splitRange d s f = month_add d s :: splitRange d (s + 1) f := by
  unfold splitRange
  rw [show (f - s).toNat = (f - (s + 1)).toNat + 1 from by omega,
    List.range_succ_eq_map, List.map_cons, List.map_map]
  simp only [List.cons.injEq]
  refine ⟨by simp, ?_⟩
  apply List.map_congr_left
  intro i _
  simp only [Function.comp_apply]
  congr 1
  push_cast
  ring

theorem mapM_mkRowD_ok (each : ℤ) (cmt dir : String)
    (hdir : dir = "incoming" ∨ dir = "outgoing") (heach : 0 ≤ each)
    (htags : (hashtags cmt).length ≤ 1) :
    ∀ ds : List Date, ds.mapM (fun d => mkRowD each d cmt dir) =
      .ok (ds.map (fun d =>
        { value := dirSign dir * each, date := d, comment := cmt,
          hashtag := (hashtags cmt).head? })) := by
  intro ds
  induction ds with
  | nil => rfl
  | cons d ds ih =>
    rw [List.mapM_cons, mkRowD_ok each d cmt dir hdir heach htags]
    simp only [bindE_ok, ih, List.map_cons, pureE]

theorem month_add_zero (d : Date) : month_add d 0 = d := by
  simp [month_add]

theorem autosplit_simple_cons (r : Row) (d0 : Date) (rest : List Date)
    (cmt : String) (each rem : ℤ)
    (hne : ¬((d0 :: rest).length = 1 ∧ (d0 :: rest).head? = some r.date))
    (h1 : 0 ≤ each + rem) (h2 : 0 ≤ each)
    (htags : (hashtags cmt).length ≤ 1) :
    autosplit_simple r (d0 :: rest) cmt each rem =
      .ok ({ value := dirSign r.direction * (each + rem), date := d0,
             comment := cmt, hashtag := (hashtags cmt).head? } ::
        rest.map (fun d =>
          { value := dirSign r.direction * each, date := d, comment := cmt,
            hashtag := (hashtags cmt).head? })) := by
  unfold autosplit_simple
  rw [if_neg hne]
  simp only [autosplit_simple_children]
  rw [mkRowD_ok (each + rem) d0 cmt r.direction r.direction_cases h1 htags,
    bindE_ok, mapM_mkRowD_ok each cmt r.direction r.direction_cases h2 htags rest,
    bindE_ok, pureE]

/-- The child the simple splitter produces at index `i` of an `n`-way
split: the truncated share, plus the truncation remainder for the first
child, signed by the row's direction, dated `i` months on, the comment
extended by the `!child` marker. -/
def simpleChild (r : Row) (n : ℤ) (i : ℕ) : Row :=
  { value := dirSign r.direction *
      (if i = 0 then Int.tdiv |r.value| n + (|r.value| - Int.tdiv |r.value| n * n)
       else Int.tdiv |r.value| n),
    date := month_add r.date (i : ℤ),
    comment := r.comment ++ " !child",
    hashtag := (hashtags r.comment).head? }

theorem sumValues_nil : sumValues [] = 0 := rfl

theorem sumValues_cons (r : Row) (rows : List Row) :
    sumValues (r :: rows) = r.value + sumValues rows := by
  simp [sumValues]

theorem sumValues_append (a b : List Row) :
    sumValues (a ++ b) = sumValues a + sumValues b := by
  simp [sumValues]

/-! ### Lemmas about the proportional carry loop -/

theorem propLoop_nil (each : ℤ) (cmt dir : String) (value : ℤ) (lastD : Date)
    (acc : List Row) :
    propLoop each cmt dir value [] lastD acc = .ok (value, [], lastD, acc) := rfl

theorem propLoop_stop (each : ℤ) (cmt dir : String) (value : ℤ) (d : Date)
    (rest : List Date) (lastD : Date) (acc : List Row) (h : ¬(each ≤ value)) :
    propLoop each cmt dir value (d :: rest) lastD acc =
      .ok (value, d :: rest, lastD, acc) := by
  unfold propLoop
  rw [if_neg h]
  rfl

theorem propLoop_ok_spec (each : ℤ) (cmt dir : String) :
    ∀ (dates : List Date) (value : ℤ) (lastD : Date) (acc : List Row)
      (out : ℤ × List Date × Date × List Row),
      propLoop each cmt dir value dates lastD acc = .ok out →
      sumValues out.2.2.2 = sumValues acc + dirSign dir * (value - out.1) ∧
      (0 ≤ value → 0 ≤ out.1) ∧ acc.length ≤ out.2.2.2.length := by
  intro dates
  induction dates with
  | nil =>
    intro value lastD acc out h
    rw [propLoop_nil] at h
    cases h
    exact ⟨by ring, fun h0 => h0, le_rfl⟩
  | cons d rest ih =>
    intro value lastD acc out h
    by_cases hcond : each ≤ value
    · unfold propLoop at h
      rw [if_pos hcond] at h
      cases hm : mkRowD each d cmt dir with
      | error e => rw [hm, bindE_error] at h; cases h
      | ok row =>
        rw [hm, bindE_ok] at h
        obtain ⟨hsum, hpos, hlen⟩ := ih (value - each) d (acc ++ [row]) out h
        have hrow := (mkRowD_ok_inv hm).1
        refine ⟨?_, fun _ => hpos (by omega), ?_⟩
        · rw [hsum, sumValues_append, sumValues_cons, sumValues_nil, hrow]
          ring
        · calc acc.length ≤ (acc ++ [row]).length := by simp
            _ ≤ out.2.2.2.length := hlen
    · rw [propLoop_stop each cmt dir value d rest lastD acc hcond] at h
      cases h
      exact ⟨by ring, fun h0 => h0, le_rfl⟩

theorem exceptMap_ok {ε α β : Type} {f : α → β} {e : Except ε α} {b : β}
    (h : e.map f = .ok b) : ∃ a, e = .ok a ∧ b = f a := by
  cases e with
  | error e0 => simp [Except.map] at h
  | ok a => exact ⟨a, rfl, by simpa [Except.map] using h.symm⟩

theorem autosplit_proportional_ok_len (r : Row) (dates : List Date)
    (cmt : String) (each : ℤ) {rows : List Row}
    (h : autosplit_proportional r dates cmt each = .ok rows) :
    2 ≤ rows.length := by
  match dates with
  | [] => exact absurd h (by simp [autosplit_proportional, throwE])
  | d0 :: rest =>
    simp only [autosplit_proportional] at h
    cases hm : mkRowD (firstShare each d0.day) d0 cmt r.direction with
    | error e => rw [hm, bindE_error] at h; cases h
    | ok r0 =>
      rw [hm, bindE_ok] at h
      cases hp : propLoop each cmt r.direction
          (r.value - firstShare each d0.day) rest d0 [r0] with
      | error e => rw [hp, bindE_error] at h; cases h
      | ok res =>
        rw [hp, bindE_ok] at h
        have hlen : 1 ≤ res.2.2.2.length := by
          simpa using
            (propLoop_ok_spec each cmt r.direction rest _ d0 [r0] res hp).2.2
        unfold propFinal at h
        by_cases hz : each = 0
        · rw [if_pos hz] at h; cases h
        · rw [if_neg hz] at h
          obtain ⟨rF, -, hrows⟩ := exceptMap_ok h
          rw [hrows]
          simp
          omega

theorem autosplit_simple_spec (r : Row) (t cs : String) (n : ℤ)
    (htag : tagsFound '!' r.comment = [t])
    (hsplit : splitColon t = ["months", cs])
    (hn : parseInt cs = some n) (hn2 : 2 ≤ n)
    (htags : (hashtags r.comment).length ≤ 1) :
    r.autosplit "simple" = .ok ((List.range n.toNat).map (simpleChild r n)) := by
  have hn0 : (0 : ℤ) ≤ n := by omega
  have hlen : (splitRange r.date 0 n).length = n.toNat := by
    rw [splitRange_length]; congr 1; omega
  have hcount : ¬((splitRange r.date 0 n).length < 1) := by
    rw [hlen]; omega
  have htags2 : (hashtags (r.comment ++ " !child")).length ≤ 1 := by
    rw [hashtags_append_child]; exact htags
  have heach : 0 ≤ Int.tdiv |r.value| n := Int.tdiv_nonneg (abs_nonneg _) hn0
  have hrem : 0 ≤ |r.value| - Int.tdiv |r.value| n * n := by
    have := Int.tmod_nonneg n (abs_nonneg r.value)
    rw [Int.tmod_def, mul_comm] at this
    omega
  unfold Row.autosplit
  rw [split_dates_months htag hsplit hn, bindE_ok]
  dsimp only
  rw [if_neg hcount, if_pos rfl, hlen, Int.toNat_of_nonneg hn0]
  rw [splitRange_cons r.date 0 n (by omega), month_add_zero]
  rw [autosplit_simple_cons r r.date (splitRange r.date (0 + 1) n)
    (r.comment ++ " !child") (Int.tdiv |r.value| n)
    (|r.value| - Int.tdiv |r.value| n * n)
    (by rw [List.length_cons, splitRange_length]; intro hc; omega)
    (by omega) heach htags2]
  rw [hashtags_append_child]
  congr 1
  rw [show n.toNat = (n.toNat - 1) + 1 from by omega, List.range_succ_eq_map,
    List.map_cons, List.map_map]
  simp only [List.cons.injEq]
  constructor
  · simp [simpleChild, month_add_zero]
  · rw [show (0 : ℤ) + 1 = 1 from by omega]
    unfold splitRange
    rw [List.map_map, show (n - 1).toNat = n.toNat - 1 from by omega]
    apply List.map_congr_left
    intro i hi
    simp only [Function.comp_apply, simpleChild]
    have : ¬(i + 1 = 0) := by omega
    simp only [this, if_false]
    congr 2
    push_cast
    ring

/-! ### Claim C1: the simple split -/

theorem sum_simpleChildren (r : Row) (n : ℤ) (hn2 : 2 ≤ n) :
    sumValues ((List.range n.toNat).map (simpleChild r n)) = r.value := by
  unfold sumValues
  rw [List.map_map]
  rw [show n.toNat = (n.toNat - 1) + 1 from by omega, List.range_succ_eq_map,
    List.map_cons, List.map_map, List.sum_cons]
  have htail : List.map ((Row.value ∘ simpleChild r n) ∘ Nat.succ)
      (List.range (n.toNat - 1)) =
      List.map (fun _ => dirSign r.direction * Int.tdiv |r.value| n)
        (List.range (n.toNat - 1)) := by
    apply List.map_congr_left
    intro i _
    simp [simpleChild]
  rw [htail, List.map_const', List.sum_replicate, List.length_range]
  simp only [Function.comp_apply, simpleChild, if_true, nsmul_eq_mul]
  have hcast : ((n.toNat - 1 : ℕ) : ℤ) = n - 1 := by omega
  rw [hcast]
  have hds := dirSign_mul_abs r
  linear_combination hds

/-- C1 (amended): a record whose comment carries a single `!months:count`
directive and no other bangtag splits, under the default simple method,
into exactly `count` children dated at successive whole-month increments,
each valued at the truncated share of the magnitude signed by the original
direction, the first child also receiving the truncation remainder, each
comment extended by `!child`, and the signed values summing exactly to the
original — provided `count ≥ 2`; a resolved count of exactly 1 instead
returns the original record unchanged (no `!child` marker). -/
theorem C1_simple_split (r : Row) (t cs : String) (n : ℤ)
    (htags : (hashtags r.comment).length ≤ 1)
    (htag : tagsFound '!' r.comment = [t])
    (hsplit : splitColon t = ["months", cs])
    (hn : parseInt cs = some n) :
    (2 ≤ n →
      r.autosplit "simple" = .ok ((List.range n.toNat).map (simpleChild r n)) ∧
      ((List.range n.toNat).map (simpleChild r n)).length = n.toNat ∧
      sumValues ((List.range n.toNat).map (simpleChild r n)) = r.value) ∧
    (n = 1 → r.autosplit "simple" = .ok [r]) := by
  constructor
  · intro hn2
    refine ⟨autosplit_simple_spec r t cs n htag hsplit hn hn2 htags, by simp, ?_⟩
    exact sum_simpleChildren r n hn2
  · intro h1
    subst h1
    have hsd : r.split_dates = .ok (splitRange r.date 0 1) :=
      split_dates_months htag hsplit hn
    have hone : splitRange r.date 0 1 = [r.date] := by
      rw [splitRange_cons r.date 0 1 (by omega), month_add_zero]
      unfold splitRange
      norm_num
    rw [hone] at hsd
    unfold Row.autosplit
    rw [hsd, bindE_ok]
    dsimp only
    rw [if_neg (by simp), if_pos rfl]
    unfold autosplit_simple
    rw [if_pos (by simp)]
    rfl

/-- A record carrying the directive `!months:3`, magnitude 100, outgoing:
the spec's own simple-split example. -/
def rowC1 : Row :=
  { value := -100, date := ⟨2021, 1, 15⟩, comment := "rent !months:3",
    hashtag := none }

/-- The three children the claim's own example predicts for `rowC1`. -/
def childrenC1 : List Row :=
  [ { value := -34, date := ⟨2021, 1, 15⟩,
      comment := "rent !months:3 !child", hashtag := none },
    { value := -33, date := ⟨2021, 2, 15⟩,
      comment := "rent !months:3 !child", hashtag := none },
    { value := -33, date := ⟨2021, 3, 15⟩,
      comment := "rent !months:3 !child", hashtag := none } ]

theorem C1_simple_split_witness :
    rowC1.autosplit "simple" = .ok childrenC1 ∧
    sumValues childrenC1 = rowC1.value := by
  have h := (C1_simple_split rowC1 "months:3" "3" 3 (by decide) (by decide)
    (by decide) (by decide)).1 (by omega)
  refine ⟨?_, by decide⟩
  rw [h.1]
  decide

/-- A record carrying the directive `!months:1`: resolved count 1. -/
def rowC1x : Row :=
  { value := -100, date := ⟨2021, 1, 15⟩, comment := "rent !months:1",
    hashtag := none }

/-- C1 counterexample: a record with a single `!months:1` directive
(resolved count 1, allowed by the claim's `count >= 1`) is returned by the
simple splitter as itself, with its comment unchanged — no record ending in
`!child` is produced, against the claim's comment clause. -/
theorem C1_counterexample :
    mkRowD 100 ⟨2021, 1, 15⟩ "rent !months:1" "outgoing" = .ok rowC1x ∧
    tagsFound '!' rowC1x.comment = ["months:1"] ∧
    rowC1x.autosplit "simple" = .ok [rowC1x] ∧
    rowC1x.comment = "rent !months:1" ∧
    "rent !months:1" ≠ "rent !months:1" ++ " !child" := by
  decide

/-! ### Claim C3: re-splitting a split child -/

theorem autosplit_multi_bang (c : Row) {t1 t2 : String} {rest : List String}
    (h : tagsFound '!' c.comment = t1 :: t2 :: rest) (method : String) :
    c.autosplit method = .error .multipleTags := by
  unfold Row.autosplit Row.split_dates
  rw [bangtag_multiple h]
  rfl

/-- C3 (amended): every record produced by an actual simple split (count at
least 2) carries both the original `!months` directive and the appended
`!child` marker in its comment; passing it to `autosplit` again — under any
method — fails with the `MultipleTags` error: it is never split a second
time, but it is rejected rather than passed through. -/
theorem C3_child_resplit (r : Row) (t cs : String) (n : ℤ) (method : String)
    (rows : List Row)
    (htags : (hashtags r.comment).length ≤ 1)
    (htag : tagsFound '!' r.comment = [t])
    (hsplit : splitColon t = ["months", cs])
    (hn : parseInt cs = some n) (hn2 : 2 ≤ n)
    (hrows : r.autosplit "simple" = .ok rows) :
    ∀ c ∈ rows, c.autosplit method = .error .multipleTags := by
  intro c hc
  rw [autosplit_simple_spec r t cs n htag hsplit hn hn2 htags] at hrows
  cases hrows
  obtain ⟨i, -, hci⟩ := List.mem_map.mp hc
  have hcomment : c.comment = r.comment ++ " !child" := by
    rw [← hci]; rfl
  have hbang : tagsFound '!' c.comment = [t, "child"] := by
    rw [hcomment, bangtags_append_child, htag]
    rfl
  exact autosplit_multi_bang c hbang method

def parentC3 : Row :=
  { value := -99, date := ⟨2021, 4, 10⟩, comment := "pay !months:3",
    hashtag := none }

def childC3 : Row :=
  { value := -33, date := ⟨2021, 4, 10⟩, comment := "pay !months:3 !child",
    hashtag := none }

/-- The three children `parentC3` splits into. -/
def childrenC3 : List Row :=
  [ childC3,
    { value := -33, date := ⟨2021, 5, 10⟩,
      comment := "pay !months:3 !child", hashtag := none },
    { value := -33, date := ⟨2021, 6, 10⟩,
      comment := "pay !months:3 !child", hashtag := none } ]

theorem C3_child_resplit_witness :
    parentC3.autosplit "simple" = .ok childrenC3 ∧
    childC3.autosplit "simple" = .error .multipleTags := by
  have h := (C1_simple_split parentC3 "months:3" "3" 3 (by decide) (by decide)
    (by decide) (by decide)).1 (by omega)
  have hok : parentC3.autosplit "simple" = .ok childrenC3 := by
    rw [h.1]; decide
  refine ⟨hok, ?_⟩
  exact C3_child_resplit parentC3 "months:3" "3" 3 "simple" _ (by decide)
    (by decide) (by decide) (by decide) (by omega) hok childC3 (by decide)

/-- C3 counterexample: a record produced by splitting `parentC3` is not
passed through unchanged on a second `autosplit`; it is rejected with
`MultipleTags`. -/
theorem C3_counterexample :
    parentC3.autosplit "simple" = .ok childrenC3 ∧
    childC3.autosplit "simple" = .error .multipleTags ∧
    childC3.autosplit "simple" ≠ .ok [childC3] := by
  decide

/-! ### Claim C4: no recognised directive -/

theorem autosplit_prop_ok_len {r : Row} {rows : List Row}
    (h : r.autosplit "proportional" = .ok rows) : 2 ≤ rows.length := by
  unfold Row.autosplit at h
  cases hsd : r.split_dates with
  | error e => rw [hsd, bindE_error] at h; cases h
  | ok dates =>
    rw [hsd, bindE_ok] at h
    dsimp only at h
    by_cases hc : dates.length < 1
    · rw [if_pos hc] at h; cases h
    · rw [if_neg hc, if_neg (by decide), if_pos rfl] at h
      exact autosplit_proportional_ok_len r dates _ _ h

/-- C4 (amended): a record whose comment carries at most one bangtag and no
recognised `months` directive passes through `autosplit` unchanged as a
one-element sequence under the default 'simple' method.  (Under
'proportional' the same record is not a no-op — see the counterexample —
and a comment with two or more bangtags is rejected even under 'simple'.)
-/
theorem C4_no_directive (r : Row)
    (h : tagsFound '!' r.comment = [] ∨
      ∃ t, tagsFound '!' r.comment = [t] ∧
        (splitColon t).head? ≠ some "months") :
    r.autosplit "simple" = .ok [r] := by
  have hsd : r.split_dates = .ok [r.date] := by
    apply split_dates_no_directive
    rcases h with h | ⟨t, ht, hh⟩
    · exact .inl h
    · exact .inr ⟨t, splitColon t, ht, rfl, hh⟩
  unfold Row.autosplit
  rw [hsd, bindE_ok]
  dsimp only
  rw [if_neg (by simp), if_pos rfl]
  unfold autosplit_simple
  rw [if_pos (by simp)]
  rfl

def rowC4a : Row :=
  { value := 70, date := ⟨2021, 1, 15⟩, comment := "membership dues",
    hashtag := none }

def rowC4b : Row :=
  { value := 5, date := ⟨2021, 1, 15⟩, comment := "!alpha !beta",
    hashtag := none }

theorem C4_no_directive_witness :
    rowC4a.autosplit "simple" = .ok [rowC4a] :=
  C4_no_directive rowC4a (.inl (by decide))

/-- C4 counterexample: `rowC4a` carries no `!months` directive, yet the
'proportional' method does not return it unchanged as a one-element
sequence (every successful proportional split yields at least two
records); and a record with two unrecognised bangtags is rejected by the
'simple' method rather than passed through. -/
theorem C4_counterexample :
    rowC4a.autosplit "proportional" ≠ .ok [rowC4a] ∧
    rowC4b.autosplit "simple" = .error .multipleTags := by
  constructor
  · intro h
    have h2 := autosplit_prop_ok_len h
    simp at h2
  · decide

/-! ### Claims C5 and C10: construction -/

theorem mkRow_parse {v : ℤ} {ds cmt dir : String} {d : Date}
    (h : parseDate (strip ds) = some d) :
    mkRow v ds cmt dir = mkRowD v d cmt dir := by
  unfold mkRow
  rw [h]

theorem mkRowD_invalid {value : ℤ} {date : Date} {comment dir : String}
    (h : ¬(dir = "incoming" ∨ dir = "outgoing")) :
    mkRowD value date comment dir = .error .invalidDirection := by
  unfold mkRowD
  rw [if_pos (by tauto)]
  rfl

theorem mkRowD_negative {value : ℤ} {date : Date} {comment dir : String}
    (hdir : dir = "incoming" ∨ dir = "outgoing") (h : value < 0) :
    mkRowD value date comment dir = .error .negativeMagnitude := by
  unfold mkRowD
  rw [if_neg (by tauto), if_pos h]
  rfl

/-- The row `Row.__new__` stores for magnitude `m`, date `d`, comment `c`
and direction `dir`: the magnitude signed by the direction, with the
hashtag extracted from the comment. -/
def mkStored (m : ℤ) (d : Date) (c dir : String) : Row :=
  { value := dirSign dir * m, date := d, comment := c,
    hashtag := (hashtags c).head? }

/-- C5 (amended): for a parseable date and a comment carrying at most one
hashtag, construction with a non-negative magnitude and a direction in the
two-value enum succeeds, stores the magnitude signed by the direction, and
the re-derived direction equals the supplied one whenever the magnitude is
positive; any direction outside the enum is rejected with
`InvalidDirection`, and a negative magnitude (valid direction) is rejected
with `NegativeMagnitude`.  (A comment with two or more hashtags makes
construction fail with `MultipleTags` even under the other hypotheses —
the counterexample.) -/
theorem C5_construction (m : ℤ) (ds : String) (d : Date) (c dir : String)
    (hdate : parseDate (strip ds) = some d)
    (htags : (hashtags c).length ≤ 1) :
    (dir = "incoming" ∨ dir = "outgoing" → 0 ≤ m →
      mkRow m ds c dir = .ok (mkStored m d c dir) ∧
      (0 < m → (mkStored m d c dir).direction = dir)) ∧
    (¬(dir = "incoming" ∨ dir = "outgoing") →
      mkRow m ds c dir = .error .invalidDirection) ∧
    (m < 0 → (dir = "incoming" ∨ dir = "outgoing") →
      mkRow m ds c dir = .error .negativeMagnitude) := by
  refine ⟨fun hdir hm => ⟨?_, fun hpos => ?_⟩, fun hdir => ?_, fun hm hdir => ?_⟩
  · rw [mkRow_parse hdate]
    exact mkRowD_ok m d c dir hdir hm htags
  · rcases hdir with h | h <;> subst h <;>
      simp [mkStored, Row.direction, dirSign] <;> omega
  · rw [mkRow_parse hdate]
    exact mkRowD_invalid hdir
  · rw [mkRow_parse hdate]
    exact mkRowD_negative hdir hm

def rowC5 : Row :=
  { value := 7, date := ⟨2021, 5, 4⟩, comment := "pay #rent",
    hashtag := some "rent" }

theorem C5_construction_witness :
    mkRow 7 "2021-05-04" "pay #rent" "incoming" = .ok rowC5 ∧
    rowC5.direction = "incoming" ∧
    mkRow 7 "2021-05-04" "pay #rent" "sideways" = .error .invalidDirection ∧
    mkRow (-7) "2021-05-04" "pay #rent" "incoming" =
      .error .negativeMagnitude := by
  have h := C5_construction 7 "2021-05-04" ⟨2021, 5, 4⟩ "pay #rent" "incoming"
    (by decide) (by decide)
  have h2 := C5_construction 7 "2021-05-04" ⟨2021, 5, 4⟩ "pay #rent" "sideways"
    (by decide) (by decide)
  have h3 := C5_construction (-7) "2021-05-04" ⟨2021, 5, 4⟩ "pay #rent"
    "incoming" (by decide) (by decide)
  refine ⟨?_, ?_, ?_, ?_⟩
  · rw [(h.1 (.inl rfl) (by omega)).1]; decide
  · have hd := (h.1 (.inl rfl) (by omega)).2 (by omega)
    rw [show mkStored 7 ⟨2021, 5, 4⟩ "pay #rent" "incoming" = rowC5
      from by decide] at hd
    exact hd
  · exact h2.2.1 (by decide)
  · exact h3.2.2 (by omega) (.inl rfl)

/-- C5 counterexample: with a parseable date, a non-negative magnitude and
a valid direction — every hypothesis the claim states — construction still
fails when the comment carries two hashtags, against the claim's
unconditional "construction succeeds". -/
theorem C5_counterexample :
    (0 : ℤ) ≤ 5 ∧ parseDate (strip "2021-01-01") = some ⟨2021, 1, 1⟩ ∧
    mkRow 5 "2021-01-01" "#a #b" "incoming" = .error .multipleTags := by
  decide

/-- C10 (amended): for a parseable date, a comment with at most one
hashtag, and either direction of the enum, constructing with magnitude 0
succeeds, stores amount 0, and the re-derived direction is `incoming` even
when the supplied direction was `outgoing`. -/
theorem C10_zero_magnitude (ds : String) (d : Date) (c dir : String)
    (hdate : parseDate (strip ds) = some d)
    (htags : (hashtags c).length ≤ 1)
    (hdir : dir = "incoming" ∨ dir = "outgoing") :
    mkRow 0 ds c dir =
      .ok { value := 0, date := d, comment := c,
            hashtag := (hashtags c).head? } ∧
    Row.direction
        { value := 0, date := d, comment := c,
          hashtag := (hashtags c).head? } = "incoming" := by
  constructor
  · rw [mkRow_parse hdate]
    have h := mkRowD_ok 0 d c dir hdir le_rfl htags
    simpa using h
  · simp [Row.direction]

def rowC10 : Row :=
  { value := 0, date := ⟨2021, 7, 1⟩, comment := "fees", hashtag := none }

theorem C10_zero_magnitude_witness :
    mkRow 0 "2021-07-01" "fees" "outgoing" = .ok rowC10 ∧
    rowC10.direction = "incoming" := by
  have h := C10_zero_magnitude "2021-07-01" ⟨2021, 7, 1⟩ "fees" "outgoing"
    (by decide) (by decide) (.inr rfl)
  constructor
  · rw [h.1]; decide
  · have h2 := h.2
    rw [show ({ value := 0, date := ⟨2021, 7, 1⟩, comment := "fees",
                hashtag := (hashtags "fees").head? } : Row) = rowC10
      from by decide] at h2
    exact h2

/-- C10 counterexample: with a parseable date and a valid direction,
constructing a zero-magnitude record still fails when the comment carries
two hashtags, against the claim's "construction succeeds for every
comment". -/
theorem C10_counterexample :
    parseDate (strip "2021-03-03") = some ⟨2021, 3, 3⟩ ∧
    mkRow 0 "2021-03-03" "#x #y" "outgoing" = .error .multipleTags := by
  decide

/-! ### Claim C6: month arithmetic round trip -/

theorem carryUpGo_eq_self {fuel : ℕ} {y m : ℤ} (h : ¬12 < m) :
    carryUpGo fuel y m = (y, m) := by
  cases fuel <;> simp [carryUpGo, h]

theorem carryDownGo_eq_self {fuel : ℕ} {y m : ℤ} (h : ¬m < 1) :
    carryDownGo fuel y m = (y, m) := by
  cases fuel <;> simp [carryDownGo, h]

theorem carryUpGo_spec : ∀ (fuel : ℕ) (y m : ℤ), m ≤ 12 + 12 * fuel →
    12 * (carryUpGo fuel y m).1 + (carryUpGo fuel y m).2 = 12 * y + m ∧
    (carryUpGo fuel y m).2 ≤ 12 := by
  intro fuel
  induction fuel with
  | zero =>
    intro y m hm
    exact ⟨rfl, show m ≤ 12 by omega⟩
  | succ fuel ih =>
    intro y m hm
    by_cases h : 12 < m
    · simp only [carryUpGo, if_pos h]
      obtain ⟨h1, h2⟩ := ih (y + 1) (m - 12) (by omega)
      constructor
      · omega
      · exact h2
    · rw [carryUpGo_eq_self h]
      exact ⟨rfl, show m ≤ 12 by omega⟩

theorem carryDownGo_spec : ∀ (fuel : ℕ) (y m : ℤ),
    1 - 12 * fuel ≤ m → m ≤ 12 →
    12 * (carryDownGo fuel y m).1 + (carryDownGo fuel y m).2 = 12 * y + m ∧
    1 ≤ (carryDownGo fuel y m).2 ∧ (carryDownGo fuel y m).2 ≤ 12 := by
  intro fuel
  induction fuel with
  | zero =>
    intro y m h1 h2
    exact ⟨rfl, show 1 ≤ m by omega, show m ≤ 12 by omega⟩
  | succ fuel ih =>
    intro y m h1 h2
    by_cases h : m < 1
    · simp only [carryDownGo, if_pos h]
      obtain ⟨ha, hb, hc⟩ := ih (y - 1) (m + 12) (by omega) (by omega)
      exact ⟨by omega, hb, hc⟩
    · rw [carryDownGo_eq_self h]
      exact ⟨rfl, show 1 ≤ m by omega, show m ≤ 12 by omega⟩

theorem normYM_spec (y m : ℤ) :
    12 * (normYM y m).1 + (normYM y m).2 = 12 * y + m ∧
    1 ≤ (normYM y m).2 ∧ (normYM y m).2 ≤ 12 := by
  unfold normYM
  obtain ⟨h1, h2⟩ := carryUpGo_spec m.toNat y m (by omega)
  obtain ⟨ha, hb, hc⟩ := carryDownGo_spec (1 - (carryUpGo m.toNat y m).2).toNat
    (carryUpGo m.toNat y m).1 (carryUpGo m.toNat y m).2 (by omega) h2
  exact ⟨by omega, hb, hc⟩

theorem normYM_eq_of_lin (y m Y M : ℤ) (h : 12 * Y + M = 12 * y + m)
    (h1 : 1 ≤ m) (h2 : m ≤ 12) : normYM Y M = (y, m) := by
  obtain ⟨hl, hb1, hb2⟩ := normYM_spec Y M
  have e1 : (normYM Y M).1 = y := by omega
  have e2 : (normYM Y M).2 = m := by omega
  rw [← e1, ← e2]

theorem month_add_eq (d : Date) (n : ℤ) (hn : n ≠ 0) :
    month_add d n =
      { year := (normYM d.year (d.month + n)).1,
        month := (normYM d.year (d.month + n)).2,
        day := min d.day (monthLength (normYM d.year (d.month + n)).1
          (normYM d.year (d.month + n)).2) } := by
  unfold month_add
  rw [if_neg hn]

/-- C6: adding `n` months and then `-n` months returns the original date
whenever the original day-of-month is a valid day of the month `n` months
after — i.e. whenever no clamping occurs on the forward step. -/
theorem C6_month_add_round_trip (d : Date) (n : ℤ) (hv : d.Valid)
    (hday : d.day ≤ monthLength (normYM d.year (d.month + n)).1
      (normYM d.year (d.month + n)).2) :
    month_add (month_add d n) (-n) = d := by
  obtain ⟨hm1, hm2, hd1, hd2⟩ := hv
  by_cases hn : n = 0
  · subst hn
    simp [month_add_zero]
  · obtain ⟨hl, hb1, hb2⟩ := normYM_spec d.year (d.month + n)
    rw [month_add_eq d n hn, min_eq_left hday]
    rw [month_add_eq _ (-n) (by omega)]
    dsimp only
    rw [normYM_eq_of_lin d.year d.month _ _ (by omega) hm1 hm2]
    dsimp only
    rw [min_eq_left hd2]

theorem C6_month_add_round_trip_witness :
    month_add (month_add ⟨2021, 3, 15⟩ 23) (-23) = (⟨2021, 3, 15⟩ : Date) :=
  C6_month_add_round_trip ⟨2021, 3, 15⟩ 23 (by decide) (by decide)

/-! ### Claim C2: grid accumulation invariants -/

theorem monthKey_has_dash (d : Date) : '-' ∈ (monthKey d).toList := by
  unfold monthKey
  rw [toList_append, toList_append]
  simp

theorem monthKey_ne_total (d : Date) : monthKey d ≠ "total" := by
  intro h
  have hd := monthKey_has_dash d
  rw [h] at hd
  exact absurd hd (by decide)

theorem month_ne_total (r : Row) : r.month ≠ "total" :=
  monthKey_ne_total r.date

theorem grid_foldl_total : ∀ (rows : List Row) (g : Grid),
    (rows.foldl gridStep g).totals "total" = g.totals "total" + sumValues rows := by
  intro rows
  induction rows with
  | nil => intro g; simp [sumValues]
  | cons r rs ih =>
    intro g
    rw [List.foldl_cons, ih, sumValues_cons]
    have hne : ¬("total" = r.month) := fun h => month_ne_total r h.symm
    simp only [gridStep, if_neg hne, eq_self_iff_true, if_true]
    ring

theorem grid_foldl_month : ∀ (rows : List Row) (g : Grid) (m : String),
    m ≠ "total" →
    (rows.foldl gridStep g).totals m =
      g.totals m + sumValues (rows.filter (fun r => r.month = m)) := by
  intro rows
  induction rows with
  | nil => intro g m _; simp [sumValues]
  | cons r rs ih =>
    intro g m hm
    rw [List.foldl_cons, ih _ m hm]
    by_cases h : r.month = m
    · rw [List.filter_cons_of_pos (by simp [h]), sumValues_cons]
      simp only [gridStep, if_neg hm, if_pos h.symm]
      ring
    · rw [List.filter_cons_of_neg (by simp [h])]
      have : ¬(m = r.month) := fun hc => h hc.symm
      simp only [gridStep, if_neg hm, if_neg this]

theorem grid_foldl_months_mem : ∀ (rows : List Row) (g : Grid) (m : String),
    m ∈ (rows.foldl gridStep g).months ↔
      m ∈ g.months ∨ m ∈ rows.map Row.month := by
  intro rows
  induction rows with
  | nil => intro g m; simp
  | cons r rs ih =>
    intro g m
    rw [List.foldl_cons, ih]
    simp only [gridStep, List.map_cons, List.mem_cons]
    by_cases h : r.month ∈ g.months
    · rw [if_pos h]
      constructor
      · rintro (hm | hm)
        · exact .inl hm
        · exact .inr (.inr hm)
      · rintro (hm | hm | hm)
        · exact .inl hm
        · exact .inl (hm ▸ h)
        · exact .inr hm
    · rw [if_neg h]
      simp only [List.mem_append, List.mem_singleton]
      constructor
      · rintro ((hm | hm) | hm)
        · exact .inl hm
        · exact .inr (.inl hm)
        · exact .inr (.inr hm)
      · rintro (hm | hm | hm)
        · exact .inl (.inl hm)
        · exact .inl (.inr hm)
        · exact .inr hm

theorem grid_foldl_months_nodup : ∀ (rows : List Row) (g : Grid),
    g.months.Nodup → (rows.foldl gridStep g).months.Nodup := by
  intro rows
  induction rows with
  | nil => intro g h; exact h
  | cons r rs ih =>
    intro g h
    rw [List.foldl_cons]
    apply ih
    by_cases hmem : r.month ∈ g.months
    · simp only [gridStep, if_pos hmem]
      exact h
    · simp only [gridStep, if_neg hmem]
      rw [List.nodup_append]
      exact ⟨h, List.nodup_singleton _, by simpa using hmem⟩

theorem grid_foldl_sums : ∀ (rows : List Row) (g : Grid) (t m : String),
    (rows.foldl gridStep g).sums t m =
      g.sums t m +
        sumValues ((rows.filter (fun r => rowTag r = t)).filter
          (fun r => r.month = m)) := by
  intro rows
  induction rows with
  | nil => intro g t m; simp [sumValues]
  | cons r rs ih =>
    intro g t m
    rw [List.foldl_cons, ih]
    by_cases h1 : rowTag r = t
    · rw [List.filter_cons_of_pos (by simp [h1])]
      by_cases h2 : r.month = m
      · rw [List.filter_cons_of_pos (by simp [h2]), sumValues_cons]
        simp only [gridStep, if_pos (And.intro h1.symm h2.symm)]
        ring
      · rw [List.filter_cons_of_neg (by simp [h2])]
        have : ¬(t = rowTag r ∧ m = r.month) := by
          rintro ⟨-, hc⟩; exact h2 hc.symm
        simp only [gridStep, if_neg this]
    · rw [List.filter_cons_of_neg (by simp [h1])]
      have : ¬(t = rowTag r ∧ m = r.month) := by
        rintro ⟨hc, -⟩; exact h1 hc.symm
      simp only [gridStep, if_neg this]

theorem sum_map_ite_single : ∀ (keys : List String) (x : String) (c : ℤ),
    keys.Nodup → x ∈ keys →
    (keys.map (fun k => if x = k then c else 0)).sum = c := by
  intro keys
  induction keys with
  | nil => intro x c _ hx; cases hx
  | cons k ks ih =>
    intro x c hnd hx
    rw [List.map_cons, List.sum_cons]
    by_cases h : x = k
    · rw [if_pos h]
      have hnotin : x ∉ ks := by rw [h]; exact (List.nodup_cons.mp hnd).1
      have hz : (ks.map (fun k2 => if x = k2 then c else 0)).sum = 0 := by
        have : ks.map (fun k2 => if x = k2 then c else 0) =
            ks.map (fun _ => (0 : ℤ)) := by
          apply List.map_congr_left
          intro y hy
          rw [if_neg (fun hc => hnotin (by rw [hc]; exact hy))]
        rw [this, List.map_const', List.sum_replicate, smul_zero]
      rw [hz, add_zero]
    · rw [if_neg h, zero_add]
      have hx2 : x ∈ ks := by
        rcases List.mem_cons.mp hx with hc | hc
        · exact absurd hc h
        · exact hc
      exact ih x c (List.nodup_cons.mp hnd).2 hx2

theorem sum_filter_partition (f : Row → String) :
    ∀ (rows : List Row) (keys : List String), keys.Nodup →
      (∀ r ∈ rows, f r ∈ keys) →
      (keys.map (fun k => sumValues (rows.filter (fun r => f r = k)))).sum =
        sumValues rows := by
  intro rows
  induction rows with
  | nil =>
    intro keys _ _
    have : keys.map (fun k =>
        sumValues (List.filter (fun r => decide (f r = k)) [])) =
        keys.map (fun _ => (0 : ℤ)) := by
      apply List.map_congr_left
      intro k _
      rfl
    rw [this, List.map_const', List.sum_replicate, smul_zero]
    rfl
  | cons r rs ih =>
    intro keys hnd hcov
    have hr : f r ∈ keys := hcov r (List.mem_cons_self r rs)
    have hcov2 : ∀ x ∈ rs, f x ∈ keys := fun x hx =>
      hcov x (List.mem_cons_of_mem r hx)
    have hsplit : keys.map (fun k =>
        sumValues ((r :: rs).filter (fun x => f x = k))) =
        keys.map (fun k => (if f r = k then r.value else 0) +
          sumValues (rs.filter (fun x => f x = k))) := by
      apply List.map_congr_left
      intro k _
      by_cases h : f r = k
      · rw [List.filter_cons_of_pos (by simp [h]), sumValues_cons, if_pos h]
      · rw [List.filter_cons_of_neg (by simp [h]), if_neg h, zero_add]
    rw [hsplit, List.sum_map_add, sum_map_ite_single keys (f r) r.value hnd hr,
      ih keys hnd hcov2, sumValues_cons]

/-- C2: for every finite sequence of records fed to the grid accumulator,
the grand total equals the sum of all per-month totals and equals the
arithmetic sum of the signed values of every input record; and for every
tag bucket in the grid, the sum of that tag's per-month sums equals the sum
of the signed values of exactly the records grouped under that tag. -/
theorem C2_grid_invariants (rows : List Row) :
    (grid_accumulate rows).totals "total" = sumValues rows ∧
    ((grid_accumulate rows).months.map (grid_accumulate rows).totals).sum =
      (grid_accumulate rows).totals "total" ∧
    ∀ tag ∈ (grid_accumulate rows).tags,
      ((grid_accumulate rows).months.map
        (fun m => (grid_accumulate rows).sums tag m)).sum =
      sumValues (rows.filter (fun r => rowTag r = tag)) := by
  have htotal : (grid_accumulate rows).totals "total" = sumValues rows := by
    unfold grid_accumulate
    rw [grid_foldl_total]
    simp
  have hnodup : (grid_accumulate rows).months.Nodup := by
    unfold grid_accumulate
    exact grid_foldl_months_nodup rows _ List.nodup_nil
  have hmem : ∀ m, m ∈ (grid_accumulate rows).months ↔
      m ∈ rows.map Row.month := by
    intro m
    unfold grid_accumulate
    rw [grid_foldl_months_mem]
    simp
  have hnt : ∀ m ∈ (grid_accumulate rows).months, m ≠ "total" := by
    intro m hm
    obtain ⟨r, -, hr⟩ := List.mem_map.mp ((hmem m).mp hm)
    rw [← hr]
    exact month_ne_total r
  have hcov : ∀ r ∈ rows, r.month ∈ (grid_accumulate rows).months := by
    intro r hr
    exact (hmem r.month).mpr (List.mem_map.mpr ⟨r, hr, rfl⟩)
  refine ⟨htotal, ?_, ?_⟩
  · have hpt : (grid_accumulate rows).months.map (grid_accumulate rows).totals =
        (grid_accumulate rows).months.map
          (fun m => sumValues (rows.filter (fun r => r.month = m))) := by
      apply List.map_congr_left
      intro m hm
      conv_lhs => unfold grid_accumulate
      rw [grid_foldl_month rows _ m (hnt m hm)]
      simp
    rw [hpt, htotal, sum_filter_partition Row.month rows _ hnodup hcov]
  · intro tag htag
    have hpt : (grid_accumulate rows).months.map
        (fun m => (grid_accumulate rows).sums tag m) =
        (grid_accumulate rows).months.map
          (fun m => sumValues ((rows.filter (fun r => rowTag r = tag)).filter
            (fun r => r.month = m))) := by
      apply List.map_congr_left
      intro m _
      conv_lhs => unfold grid_accumulate
      rw [grid_foldl_sums]
      simp
    rw [hpt]
    apply sum_filter_partition Row.month _ _ hnodup
    intro r hr
    exact hcov r (List.mem_of_mem_filter hr)

/-- The spec's own grid example: two rent records in 2024-01. -/
def demoRows : List Row :=
  [ { value := 30, date := ⟨2024, 1, 5⟩, comment := "a #rent",
      hashtag := some "rent" },
    { value := 20, date := ⟨2024, 1, 9⟩, comment := "b #rent",
      hashtag := some "rent" } ]

theorem C2_grid_invariants_witness :
    (grid_accumulate demoRows).totals "total" = sumValues demoRows ∧
    ((grid_accumulate demoRows).months.map
      (fun m => (grid_accumulate demoRows).sums "Rent" m)).sum =
      sumValues (demoRows.filter (fun r => rowTag r = "Rent")) := by
  refine ⟨(C2_grid_invariants demoRows).1, ?_⟩
  exact (C2_grid_invariants demoRows).2.2 "Rent" (by decide)

/-! ### Claim C7: ordering operators and TypeMismatch -/

theorem pyLt_bind_tm_iff (a b : PyVal) (g : Bool → Option Row) :
    ((pyLt a b >>= fun x => (pure (g x) : Except Err (Option Row))) =
      .error .typeMismatch) ↔ a.isNum ≠ b.isNum := by
  cases a <;> cases b <;>
    simp [pyLt, PyVal.isNum, pureE, throwE, bindE_ok, bindE_error]

/-- C7 (amended): for a predicate parsed with operator `>` or `<`, and a
field whose value reads successfully, evaluation fails with `TypeMismatch`
exactly when one operand is numeric and the other textual; in particular
two textual operands are compared lexicographically without error, and two
numeric operands numerically. -/
theorem C7_ordering_type_mismatch (r : Row) (now : Date)
    (s field op vs : String) (vn : PyVal)
    (hp : parseFilterString s = .ok (field, op, vs))
    (hop : op = ">" ∨ op = "<")
    (hv : r.getvalue now field = .ok vn) :
    r.filter now s = .error .typeMismatch ↔
      vn.isNum ≠ (coerceValue vs).isNum := by
  unfold Row.filter
  rw [hp, bindE_ok]
  dsimp only
  rw [hv, bindE_ok]
  rcases hop with h | h <;> subst h
  · rw [if_neg (by decide), if_neg (by decide), if_pos rfl]
    exact (pyLt_bind_tm_iff (coerceValue vs) vn _).trans ne_comm
  · rw [if_neg (by decide), if_neg (by decide), if_neg (by decide), if_pos rfl]
    exact pyLt_bind_tm_iff vn (coerceValue vs) _

def rowC7 : Row :=
  { value := 10, date := ⟨2021, 1, 15⟩, comment := "b", hashtag := none }

def now0 : Date := ⟨2021, 6, 1⟩

theorem C7_ordering_type_mismatch_witness :
    rowC7.filter now0 "comment<5" = .error .typeMismatch :=
  (C7_ordering_type_mismatch rowC7 now0 "comment<5" "comment" "<" "5"
    (.str "b") (by decide) (.inr rfl) (by decide)).mpr (by decide)

/-- C7 counterexample: the predicate `comment<c` has a non-numeric field
value (`"b"`) and a non-numeric comparison value (`"c"`), yet evaluation
does not fail with `TypeMismatch`: the two strings compare
lexicographically and the row matches. -/
theorem C7_counterexample :
    rowC7.getvalue now0 "comment" = .ok (.str "b") ∧
    (coerceValue "c").isNum = false ∧
    rowC7.filter now0 "comment<c" = .ok (some rowC7) := by
  decide

/-! ### Claims C8 and C9: the proportional splitter -/

theorem monthLength_pos (y m : ℤ) : 1 ≤ monthLength y m := by
  unfold monthLength
  split_ifs <;> omega

theorem month_add_day_pos (d : Date) (k : ℤ) (hd : 1 ≤ d.day) :
    1 ≤ (month_add d k).day := by
  unfold month_add
  split_ifs with h
  · exact hd
  · exact le_min hd (monthLength_pos _ _)

theorem split_dates_shape (r : Row) {dates : List Date}
    (h : r.split_dates = .ok dates) :
    dates = [r.date] ∨ ∃ s f : ℤ, dates = splitRange r.date s f := by
  unfold Row.split_dates at h
  cases hb : r.bangtag with
  | error e => rw [hb, bindE_error] at h; cases h
  | ok tag =>
    rw [hb, bindE_ok] at h
    cases tag with
    | none =>
      simp only [split_dates_tag, pureE] at h
      cases h
      exact .inl rfl
    | some t =>
      simp only [split_dates_tag] at h
      cases hf : splitColon t with
      | nil =>
        rw [hf] at h
        simp only [split_dates_fields, pureE] at h
        cases h
        exact .inl rfl
      | cons f0 restF =>
        rw [hf] at h
        simp only [split_dates_fields] at h
        by_cases hm : f0 ≠ "months"
        · rw [if_pos hm] at h
          cases h
          exact .inl rfl
        · rw [if_neg hm] at h
          by_cases hlen : restF.length < 1 ∨ 2 < restF.length
          · rw [if_pos hlen] at h
            cases h
          · rw [if_neg hlen] at h
            cases hmb : monthsBounds restF with
            | error e => rw [hmb, bindE_error] at h; cases h
            | ok se =>
              rw [hmb, bindE_ok, pureE] at h
              cases h
              exact .inr ⟨se.1, se.2, rfl⟩

theorem split_dates_day_pos (r : Row) (hd : 1 ≤ r.date.day)
    {dates : List Date} (h : r.split_dates = .ok dates) :
    ∀ d ∈ dates, 1 ≤ d.day := by
  intro d hmem
  rcases split_dates_shape r h with h1 | ⟨s, f, h1⟩
  · rw [h1] at hmem
    simp at hmem
    rw [hmem]
    exact hd
  · rw [h1] at hmem
    unfold splitRange at hmem
    obtain ⟨i, -, hi⟩ := List.mem_map.mp hmem
    rw [← hi]
    exact month_add_day_pos r.date _ hd

theorem firstShare_nonneg (each day : ℤ) (he : 0 ≤ each) :
    0 ≤ firstShare each day := by
  unfold firstShare
  apply Int.floor_nonneg.mpr
  have hc : ((min 28 (day - 1) : ℤ) : ℚ) ≤ 28 := by
    have : (min 28 (day - 1) : ℤ) ≤ 28 := min_le_left _ _
    exact_mod_cast this
  have hp : (0 : ℚ) ≤ 1 - ((min 28 (day - 1) : ℤ) : ℚ) / 28 := by
    rw [sub_nonneg, div_le_one (by norm_num)]
    exact hc
  have he2 : (0 : ℚ) ≤ (each : ℚ) := by exact_mod_cast he
  positivity

theorem firstShare_le (each day : ℤ) (he : 0 ≤ each) (hd : 1 ≤ day) :
    firstShare each day ≤ each := by
  unfold firstShare
  have hc : (0 : ℚ) ≤ ((min 28 (day - 1) : ℤ) : ℚ) := by
    have : (0 : ℤ) ≤ min 28 (day - 1) := le_min (by omega) (by omega)
    exact_mod_cast this
  have hp : 1 - ((min 28 (day - 1) : ℤ) : ℚ) / 28 ≤ 1 := by
    have : (0 : ℚ) ≤ ((min 28 (day - 1) : ℤ) : ℚ) / 28 := by positivity
    linarith
  have he2 : (0 : ℚ) ≤ (each : ℚ) := by exact_mod_cast he
  calc ⌊(each : ℚ) * (1 - ((min 28 (day - 1) : ℤ) : ℚ) / 28)⌋
      ≤ ⌊(each : ℚ) * 1⌋ := by
        apply Int.floor_le_floor
        exact mul_le_mul_of_nonneg_left hp he2
    _ = each := by rw [mul_one, Int.floor_intCast]

theorem propLoop_no_run (each : ℤ) (cmt dir : String) (value : ℤ)
    (dates : List Date) (lastD : Date) (acc : List Row) (h : value < each) :
    propLoop each cmt dir value dates lastD acc =
      .ok (value, dates, lastD, acc) := by
  cases dates with
  | nil => exact propLoop_nil each cmt dir value lastD acc
  | cons d rest =>
    exact propLoop_stop each cmt dir value d rest lastD acc (not_le.mpr h)

theorem autosplit_proportional_sum (r : Row) (d0 : Date) (rest : List Date)
    (cmt : String) (each : ℤ) (rows : List Row)
    (hd0 : 1 ≤ d0.day) (he1 : 0 ≤ each) (he2 : each ≤ |r.value|)
    (h : autosplit_proportional r (d0 :: rest) cmt each = .ok rows) :
    sumValues rows = r.value ∧
    ∃ body rF, rows = body ++ [rF] ∧ rF.date.day = 1 := by
  simp only [autosplit_proportional] at h
  have ht0n : 0 ≤ firstShare each d0.day := firstShare_nonneg each d0.day he1
  have ht0le : firstShare each d0.day ≤ each := firstShare_le each d0.day he1 hd0
  cases hm : mkRowD (firstShare each d0.day) d0 cmt r.direction with
  | error e => rw [hm, bindE_error] at h; cases h
  | ok r0 =>
    rw [hm, bindE_ok] at h
    obtain ⟨hr0v, -, -, -⟩ := mkRowD_ok_inv hm
    cases hp : propLoop each cmt r.direction
        (r.value - firstShare each d0.day) rest d0 [r0] with
    | error e => rw [hp, bindE_error] at h; cases h
    | ok res =>
      rw [hp, bindE_ok] at h
      obtain ⟨hsum, hpos, -⟩ :=
        propLoop_ok_spec each cmt r.direction rest _ d0 [r0] res hp
      unfold propFinal at h
      by_cases hz : each = 0
      · rw [if_pos hz] at h; cases h
      · rw [if_neg hz] at h
        obtain ⟨rF, hmk, hrows⟩ := exceptMap_ok h
        obtain ⟨hrFv, hrFd, -, -⟩ := mkRowD_ok_inv hmk
        subst hrows
        have hfday : rF.date.day = 1 := by rw [hrFd]
        have hsum0 : sumValues [r0] =
            dirSign r.direction * firstShare each d0.day := by
          rw [sumValues_cons, sumValues_nil, hr0v]; ring
        refine ⟨?_, res.2.2.2, rF, rfl, hfday⟩
        rw [sumValues_append, sumValues_cons, sumValues_nil, hrFv]
        by_cases hv : 0 ≤ r.value
        · have hds : dirSign r.direction = 1 := by
            unfold dirSign Row.direction
            rw [if_neg (not_lt.mpr hv)]
            rfl
          have habs : |r.value| = r.value := abs_of_nonneg hv
          have hw : 0 ≤ res.1 := hpos (by omega)
          have hS : sumValues res.2.2.2 = r.value - res.1 := by
            rw [hsum, hsum0, hds]; ring
          have habs2 : |sumValues res.2.2.2 - r.value| = res.1 := by
            rw [hS, show r.value - res.1 - r.value = -res.1 from by ring,
              abs_neg, abs_of_nonneg hw]
          rw [habs2, hS, hds]
          ring
        · push_neg at hv
          have hds : dirSign r.direction = -1 := by
            unfold dirSign Row.direction
            rw [if_pos hv]
            rfl
          have habs : |r.value| = -r.value := abs_of_neg hv
          have hvw : r.value - firstShare each d0.day < each := by omega
          have hres : res = (r.value - firstShare each d0.day, rest, d0, [r0]) := by
            have hnr := propLoop_no_run each cmt r.direction
              (r.value - firstShare each d0.day) rest d0 [r0] hvw
            rw [hnr] at hp
            cases hp
            rfl
          have hS : sumValues res.2.2.2 =
              -(firstShare each d0.day) := by
            rw [hres, hsum0, hds]
            ring
          have habs2 : |sumValues res.2.2.2 - r.value| =
              -(firstShare each d0.day) - r.value := by
            rw [hS, abs_of_nonneg (by omega)]
          rw [habs2, hS, hds]
          ring

/-- C8: whenever the proportional splitter returns normally on a record
with a positive day-of-month (every real record has one), the signed values
of the children sum exactly to the original record's signed value, and the
final child — dated the 1st of its month — absorbs precisely the residual
value, for incoming and outgoing records alike. -/
theorem C8_proportional_sum (r : Row) (rows : List Row)
    (hday : 1 ≤ r.date.day)
    (h : r.autosplit "proportional" = .ok rows) :
    sumValues rows = r.value ∧
    ∀ lastR, rows.getLast? = some lastR →
      lastR.date.day = 1 ∧ lastR.value = r.value - sumValues rows.dropLast := by
  unfold Row.autosplit at h
  cases hsd : r.split_dates with
  | error e => rw [hsd, bindE_error] at h; cases h
  | ok dates =>
    rw [hsd, bindE_ok] at h
    dsimp only at h
    by_cases hc : dates.length < 1
    · rw [if_pos hc] at h; cases h
    · rw [if_neg hc, if_neg (by decide), if_pos rfl] at h
      have hcount : (1 : ℤ) ≤ (dates.length : ℤ) := by
        have : 1 ≤ dates.length := by omega
        exact_mod_cast this
      have he1 : 0 ≤ Int.tdiv |r.value| (dates.length : ℤ) :=
        Int.tdiv_nonneg (abs_nonneg _) (by omega)
      have he2 : Int.tdiv |r.value| (dates.length : ℤ) ≤ |r.value| := by
        rw [Int.tdiv_eq_ediv (abs_nonneg _) (by omega)]
        exact Int.ediv_le_self _ (abs_nonneg _)
      match dates, hsd, hc, he1, he2, h with
      | [], hsd, hc, he1, he2, h => simp at hc
      | d0 :: rest, hsd, hc, he1, he2, h =>
        have hd0 : 1 ≤ d0.day :=
          split_dates_day_pos r hday hsd d0 (by simp)
        obtain ⟨hsumv, body, rF, hshape, hfday⟩ :=
          autosplit_proportional_sum r d0 rest (r.comment ++ " !child")
            (Int.tdiv |r.value| ((d0 :: rest).length : ℤ)) rows hd0 he1 he2 h
        refine ⟨hsumv, ?_⟩
        intro lastR hlast
        rw [hshape, List.getLast?_concat] at hlast
        cases hlast
        rw [hshape, List.dropLast_concat]
        constructor
        · exact hfday
        · have := hsumv
          rw [hshape, sumValues_append, sumValues_cons, sumValues_nil] at this
          omega


/-! ### A concrete proportional split, for the C8 witness -/

/-- A record whose proportional split the kernel can check end to end:
value 1, `!months:1`, dated the 1st. -/
def rowC8 : Row :=
  { value := 1, date := ⟨2021, 1, 1⟩, comment := "x !months:1", hashtag := none }

def rowC8_first : Row :=
  { value := 1, date := ⟨2021, 1, 1⟩, comment := "x !months:1 !child",
    hashtag := none }

def rowC8_final : Row :=
  { value := 0, date := ⟨2021, 2, 1⟩,
    comment := "x !months:1 !child(0% dom=1 W0)", hashtag := none }

theorem rowC8_eval :
    rowC8.autosplit "proportional" = .ok [rowC8_first, rowC8_final] := by
  have hsd : rowC8.split_dates = .ok [⟨2021, 1, 1⟩] := by decide
  unfold Row.autosplit
  rw [hsd, bindE_ok]
  dsimp only
  rw [if_neg (by decide), if_neg (by decide), if_pos rfl]
  show autosplit_proportional rowC8 [⟨2021, 1, 1⟩] "x !months:1 !child" 1 =
    .ok [rowC8_first, rowC8_final]
  simp only [autosplit_proportional]
  have hFS : firstShare 1 (1 : ℤ) = 1 := by
    unfold firstShare
    norm_num [min_def]
  rw [hFS]
  have hR0 : mkRowD 1 ⟨2021, 1, 1⟩ "x !months:1 !child" rowC8.direction =
      .ok rowC8_first := by decide
  rw [hR0, bindE_ok]
  rw [propLoop_nil, bindE_ok]
  dsimp only
  unfold propFinal
  rw [if_neg (by decide : ¬(1 : ℤ) = 0)]
  dsimp only
  have hTV : |sumValues [rowC8_first] - rowC8.value| = 0 := by decide
  rw [hTV]
  have hP2 : min (1 : ℚ) (((0 : ℤ) : ℚ) / ((1 : ℤ) : ℚ)) = 0 := by norm_num
  rw [hP2]
  have hDE : (0 : ℚ) * 27 + 1 = 1 := by norm_num
  rw [hDE]
  have hWK : (⌊(1 : ℚ) / 7⌋ : ℤ) = 0 := by norm_num
  rw [hWK]
  decide

theorem C8_proportional_sum_witness :
    1 ≤ rowC8.date.day ∧
    (sumValues [rowC8_first, rowC8_final] = rowC8.value ∧
     ∀ lastR, [rowC8_first, rowC8_final].getLast? = some lastR →
       lastR.date.day = 1 ∧
       lastR.value =
         rowC8.value - sumValues ([rowC8_first, rowC8_final]).dropLast) :=
  ⟨by decide,
   C8_proportional_sum rowC8 [rowC8_first, rowC8_final] (by decide) rowC8_eval⟩

/-! ### Claim C9: the unguarded percent division -/

theorem mkRowD_ne_zde (value : ℤ) (date : Date) (c dir : String) :
    mkRowD value date c dir ≠ .error .zeroDivisionError := by
  intro h
  rcases mkRowD_error h with h1 | h1 | h1 <;> cases h1

theorem propLoop_ne_zde (each : ℤ) (cmt dir : String) :
    ∀ (dates : List Date) (value : ℤ) (lastD : Date) (acc : List Row),
      propLoop each cmt dir value dates lastD acc ≠ .error .zeroDivisionError
  | [], value, lastD, acc => by
    rw [propLoop_nil]
    intro h
    cases h
  | d :: rest, value, lastD, acc => by
    by_cases hle : each ≤ value
    · unfold propLoop
      rw [if_pos hle]
      cases hm : mkRowD each d cmt dir with
      | error e =>
        rw [bindE_error]
        intro h
        injection h with h
        subst h
        exact mkRowD_ne_zde each d cmt dir hm
      | ok row =>
        rw [bindE_ok]
        exact propLoop_ne_zde each cmt dir rest (value - each) d (acc ++ [row])
    · rw [propLoop_stop each cmt dir value d rest lastD acc hle]
      intro h
      cases h

theorem exceptMap_ne_error {ε α β : Type} (f : α → β) (e : Except ε α)
    (err : ε) (he : e ≠ .error err) : e.map f ≠ .error err := by
  intro h
  cases e with
  | error e0 =>
    simp only [Except.map] at h
    injection h with h
    subst h
    exact he rfl
  | ok a => simp [Except.map] at h

theorem propFinal_ne_zde (r : Row) (cmt : String) (each : ℤ)
    (dl : List Date) (lastD : Date) (rows : List Row) (hz : each ≠ 0) :
    propFinal r cmt each dl lastD rows ≠ .error .zeroDivisionError := by
  unfold propFinal
  rw [if_neg hz]
  dsimp only
  exact exceptMap_ne_error _ _ _ (mkRowD_ne_zde _ _ _ _)

theorem autosplit_proportional_ne_zde (r : Row) (dates : List Date)
    (cmt : String) (each : ℤ) (hz : each ≠ 0) :
    autosplit_proportional r dates cmt each ≠ .error .zeroDivisionError := by
  cases dates with
  | nil =>
    intro h
    injection h with h
    cases h
  | cons d0 rest =>
    simp only [autosplit_proportional]
    cases hm : mkRowD (firstShare each d0.day) d0 cmt r.direction with
    | error e =>
      rw [bindE_error]
      intro h
      injection h with h
      subst h
      exact mkRowD_ne_zde _ _ _ _ hm
    | ok r0 =>
      rw [bindE_ok]
      cases hp : propLoop each cmt r.direction
          (r.value - firstShare each d0.day) rest d0 [r0] with
      | error e =>
        rw [bindE_error]
        intro h
        injection h with h
        subst h
        exact propLoop_ne_zde each cmt r.direction rest _ d0 [r0] hp
      | ok res =>
        rw [bindE_ok]
        exact propFinal_ne_zde r cmt each res.2.1 res.2.2.1 res.2.2.2 hz

theorem firstShare_zero (day : ℤ) : firstShare 0 day = 0 := by
  unfold firstShare
  simp

theorem propLoop_zero_ok (cmt dir : String)
    (hdir : dir = "incoming" ∨ dir = "outgoing")
    (htags : (hashtags cmt).length ≤ 1) :
    ∀ (dates : List Date) (value : ℤ) (lastD : Date) (acc : List Row),
      ∃ out, propLoop 0 cmt dir value dates lastD acc = .ok out
  | [], value, lastD, acc => ⟨_, propLoop_nil 0 cmt dir value lastD acc⟩
  | d :: rest, value, lastD, acc => by
    by_cases hle : (0 : ℤ) ≤ value
    · unfold propLoop
      rw [if_pos hle]
      rw [mkRowD_ok 0 d cmt dir hdir le_rfl htags, bindE_ok]
      exact propLoop_zero_ok cmt dir hdir htags rest (value - 0) d
        (acc ++ [{ value := dirSign dir * 0, date := d, comment := cmt,
                   hashtag := (hashtags cmt).head? }])
    · exact ⟨_, propLoop_stop 0 cmt dir value d rest lastD acc hle⟩

/-- C9: for a record satisfying the constructor invariant (at most one
hashtag in the comment) whose `!months` directive resolves to a non-empty
date list, the proportional splitter's unguarded final division
`this_value / each_value` raises `ZeroDivisionError` exactly when the
magnitude is strictly smaller than the month count, which in turn is
exactly when the integer per-month share `each_value` is zero; hence the
zero-division branch is unreachable precisely when the share is at least
one. -/
theorem C9_zero_guard (r : Row) (dates : List Date)
    (htags : (hashtags r.comment).length ≤ 1)
    (hsd : r.split_dates = .ok dates)
    (hne : dates ≠ []) :
    (r.autosplit "proportional" = .error .zeroDivisionError ↔
      |r.value| < (dates.length : ℤ)) ∧
    (|r.value| < (dates.length : ℤ) ↔
      Int.tdiv |r.value| (dates.length : ℤ) = 0) := by
  have hlenN : 1 ≤ dates.length :=
    Nat.one_le_iff_ne_zero.mpr (fun h0 => hne (List.length_eq_zero.mp h0))
  have hlen1 : (1 : ℤ) ≤ (dates.length : ℤ) := by exact_mod_cast hlenN
  have htd : |r.value| < (dates.length : ℤ) ↔
      Int.tdiv |r.value| (dates.length : ℤ) = 0 := by
    rw [Int.tdiv_eq_ediv (abs_nonneg _) (by omega)]
    constructor
    · intro hlt
      exact Int.ediv_eq_zero_of_lt (abs_nonneg _) hlt
    · intro h0
      by_contra hge
      push_neg at hge
      have h1 : (1 : ℤ) ≤ |r.value| / (dates.length : ℤ) := by
        rw [Int.le_ediv_iff_mul_le (by omega)]
        omega
      rw [h0] at h1
      exact absurd h1 (by norm_num)
  refine ⟨?_, htd⟩
  constructor
  · intro hzde
    by_contra hnlt
    have hz : Int.tdiv |r.value| (dates.length : ℤ) ≠ 0 := fun h0 =>
      hnlt (htd.mpr h0)
    unfold Row.autosplit at hzde
    rw [hsd, bindE_ok] at hzde
    dsimp only at hzde
    rw [if_neg (by omega : ¬dates.length < 1), if_neg (by decide),
      if_pos rfl] at hzde
    exact autosplit_proportional_ne_zde r dates (r.comment ++ " !child")
      (Int.tdiv |r.value| (dates.length : ℤ)) hz hzde
  · intro hlt
    have heach : Int.tdiv |r.value| (dates.length : ℤ) = 0 := htd.mp hlt
    unfold Row.autosplit
    rw [hsd, bindE_ok]
    dsimp only
    rw [if_neg (by omega : ¬dates.length < 1), if_neg (by decide),
      if_pos rfl, heach]
    have htags2 : (hashtags (r.comment ++ " !child")).length ≤ 1 := by
      rw [hashtags_append_child]
      exact htags
    cases dates with
    | nil => simp at hlenN
    | cons d0 rest =>
      simp only [autosplit_proportional]
      rw [firstShare_zero]
      rw [mkRowD_ok 0 d0 (r.comment ++ " !child") r.direction
        r.direction_cases le_rfl htags2, bindE_ok]
      obtain ⟨out, hout⟩ := propLoop_zero_ok (r.comment ++ " !child")
        r.direction r.direction_cases htags2 rest (r.value - 0) d0
        [{ value := dirSign r.direction * 0, date := d0,
           comment := r.comment ++ " !child",
           hashtag := (hashtags (r.comment ++ " !child")).head? }]
      rw [hout, bindE_ok]
      unfold propFinal
      rw [if_pos rfl]
      rfl

def rowC9 : Row :=
  { value := 2, date := ⟨2021, 1, 15⟩, comment := "y !months:5",
    hashtag := none }

def datesC9 : List Date :=
  [⟨2021, 1, 15⟩, ⟨2021, 2, 15⟩, ⟨2021, 3, 15⟩, ⟨2021, 4, 15⟩, ⟨2021, 5, 15⟩]

theorem C9_zero_guard_witness :
    (rowC9.autosplit "proportional" = .error .zeroDivisionError ↔
      |rowC9.value| < (datesC9.length : ℤ)) ∧
    (|rowC9.value| < (datesC9.length : ℤ) ↔
      Int.tdiv |rowC9.value| (datesC9.length : ℤ) = 0) :=
  C9_zero_guard rowC9 datesC9 (by decide) (by decide) (by decide)

end Balance
